import Mathlib

/-
Verification development for the Quick-Explorer native backend
(src/src-tauri/src: sta_worker.rs, extraction.rs, drop_overlay.rs, lib.rs).

The Rust code is shallowly embedded: pure logic becomes Lean functions,
Win32/COM calls become oracle parameters (environments recording the outcome
the OS would return), and observable side effects (emitted events, filesystem
writes, channel sends) become explicit event traces.  Machine integers are
modelled as Nat; window handles are address-sized integers where 0 is the
null handle.
-/

/-! ## Data model (lib.rs: DiskInfo, FileEntry; sta_worker.rs: StaCommand) -/

/-- Model of struct DiskInfo in lib.rs: total, used and free byte counts of a
drive. -/
structure DiskInfo where
  total : Nat
  used : Nat
  free : Nat
deriving Repr, DecidableEq

/-- Model of struct FileEntry in lib.rs: the projection of one shell item
returned by a listing.  Timestamps are kept as their formatted strings and
epoch integers, exactly the fields the Rust struct carries. -/
structure FileEntry where
  name : String
  path : String
  is_dir : Bool
  size : Nat
  formatted_size : String
  file_type : String
  created_at : String
  modified_at : String
  is_shortcut : Bool
  disk_info : Option DiskInfo
  modified_timestamp : Nat
  dimensions : Option String
deriving Repr, DecidableEq

/-- Model of enum StaCommand in sta_worker.rs.  Each variant carries the
one-shot response channel it owns; channels are modelled by identifiers
(the Nat field named response).  Window handles (Option of isize in the
source) are modelled as Option Nat, with 0 playing the role of the null
HWND. -/
inductive StaCommand where
  | listFiles (path : String) (show_hidden : Bool) (response : Nat)
  | emptyRecycleBin (response : Nat)
  | dropItems (files : List String) (target_path : String) (hwnd : Option Nat) (response : Nat)
  | moveItems (paths : List String) (target_path : String) (hwnd : Option Nat) (response : Nat)
  | deleteItems (paths : List String) (hwnd : Option Nat) (response : Nat)
  | renameItem (path : String) (new_name : String) (hwnd : Option Nat) (response : Nat)
  | pasteItems (paths : List String) (target_path : String) (is_move : Bool) (hwnd : Option Nat) (response : Nat)
deriving Repr, DecidableEq

/-- Channel identifier of the one-shot response channel a command owns. -/
def StaCommand.response : StaCommand → Nat
  | .listFiles _ _ ch => ch
  | .emptyRecycleBin ch => ch
  | .dropItems _ _ _ ch => ch
  | .moveItems _ _ _ ch => ch
  | .deleteItems _ _ ch => ch
  | .renameItem _ _ _ ch => ch
  | .pasteItems _ _ _ _ ch => ch

/-- Reply payload sent on a response channel.  ListFiles replies with file
entries, DropItems and PasteItems with path lists, the rest with unit; every
variant can instead carry an error string, as in the Rust Result types. -/
inductive ReplyVal where
  | files (r : Except String (List FileEntry))
  | pathList (r : Except String (List String))
  | unitRes (r : Except String Unit)
deriving Repr

/-! ## Foreground handshake (sta_worker.rs, synchronize_handshake) -/

/-- Sleep performed between activation attempts of the handshake loop,
in milliseconds (thread::sleep(Duration::from_millis(5)) in the source). -/
def handshakeSleepMillis : Nat := 5

/-- Maximum number of iterations of the activation loop
(while attempts < 100 in the source). -/
def handshakeMaxAttempts : Nat := 100

/-- Observable outcome of one synchronize_handshake call: how many loop
iterations ran, whether both OS queries converged to the owner window,
how many 5 ms sleeps happened, and how many AllowSetForegroundWindow calls
were made after the loop. -/
structure HandshakeRun where
  iterations : Nat
  converged : Bool
  sleeps : Nat
  finalAllows : Nat
deriving Repr, DecidableEq

/-- Model of the activation loop of synchronize_handshake.  The oracle ok
answers, for the attempt counter value, whether after this iteration's
AllowSetForegroundWindow, BringWindowToTop, SetActiveWindow and
SetForegroundWindow calls both GetForegroundWindow and GetActiveWindow
return the owner window.  On success the loop breaks before sleeping;
on failure it sleeps 5 ms and increments the counter.  Returns
(iterations executed, converged, sleeps performed). -/
def lockdownLoop (ok : Nat → Bool) : Nat → Nat → Nat × Bool × Nat
  | _, 0 => (0, false, 0)
  | attempts, remaining + 1 =>
    if ok attempts then (1, true, 0)
    else
      let r := lockdownLoop ok (attempts + 1) remaining
      (r.1 + 1, r.2.1, r.2.2 + 1)

/-- Model of synchronize_handshake in sta_worker.rs.  A null owner window
(hwnd = 0) returns immediately without running the loop.  Otherwise the
loop runs with the attempt counter starting at 0 and budget 100, and one
final AllowSetForegroundWindow is issued after the loop.  The function has
no error outcome: non-convergence still returns normally.  (The initial
bounded wait for the physical mouse release and the WM_NULL queue drain
precede the loop in the source and produce no observable state here.) -/
def synchronize_handshake (hwnd : Nat) (ok : Nat → Bool) : HandshakeRun :=
  if hwnd = 0 then
    { iterations := 0, converged := false, sleeps := 0, finalAllows := 0 }
  else
    let r := lockdownLoop ok 0 handshakeMaxAttempts
    { iterations := r.1, converged := r.2.1, sleeps := r.2.2, finalAllows := 1 }

/-! ## STA worker command implementations (sta_worker.rs) -/

/-- Observable events of one command execution on the STA worker thread. -/
inductive StaEvent where
  | diagnostic
  | attachInput
  | handshake (converged : Bool)
  | performOperations (ok : Bool)
  | refreshTab
  | sendReply (channel : Nat)
deriving Repr, DecidableEq

/-- Outcomes of the Win32/COM calls one command execution performs, as an
oracle environment: whether CoCreateInstance for IFileOperation succeeds,
whether SHCreateItemFromParsingName succeeds for the destination and for
the item of a rename, whether PerformOperations (or SHEmptyRecycleBinW)
succeeds, and the convergence oracle handed to the handshake loop. -/
structure ShellEnv where
  coCreateOk : Bool
  destItemOk : Bool
  renameItemOk : Bool
  performOk : Bool
  recycleOk : Bool
  handshakeOk : Nat → Bool

/-- Null-handle interpretation of the optional owner window: the source
converts Option of isize to an HWND whose null check is what gates
diagnostics-independent handshaking. -/
def hwndOf (hwnd : Option Nat) : Nat := hwnd.getD 0

/-- Events produced by the common preamble of every IFileOperation command
when an owner window was supplied: the diagnostic log and the
ThreadInputGuard attachment (both run for Some hwnd, even a null one). -/
def fileOpPre (hwnd : Option Nat) : List StaEvent :=
  match hwnd with
  | some _ => [.diagnostic, .attachInput]
  | none => []

/-- Events of the handshake step of an IFileOperation command: the source
calls synchronize_handshake only when the owner window is non-null. -/
def handshakeEvents (env : ShellEnv) (hwnd : Option Nat) : List StaEvent :=
  if hwndOf hwnd ≠ 0 then
    [.handshake (synchronize_handshake (hwndOf hwnd) env.handshakeOk).converged]
  else []

/-- Shared tail of every IFileOperation command: PerformOperations, and on
success the refresh-tab notification (notify_refresh) before returning Ok. -/
def performTail (env : ShellEnv) : List StaEvent × Except String Unit :=
  if env.performOk then
    ([.performOperations true, .refreshTab], .ok ())
  else
    ([.performOperations false], .error "PerformOperations failed")

/-- Model of move_items_impl: create the IFileOperation, preamble, destination
item, queue MoveItem per path (individual item failures are ignored by the
source), handshake, PerformOperations, notify_refresh on success. -/
def move_items_impl (env : ShellEnv) (paths : List String) (target_path : String)
    (hwnd : Option Nat) : List StaEvent × Except String Unit :=
  if !env.coCreateOk then ([], .error "Failed to create IFileOperation")
  else if !env.destItemOk then (fileOpPre hwnd, .error "Failed to create destination item")
  else
    let t := performTail env
    (fileOpPre hwnd ++ handshakeEvents env hwnd ++ t.1, t.2)

/-- Model of drop_items_impl: identical control flow to move_items_impl with
CopyItem instead of MoveItem; on success it replies with an empty path list. -/
def drop_items_impl (env : ShellEnv) (files : List String) (target_path : String)
    (hwnd : Option Nat) : List StaEvent × Except String (List String) :=
  if !env.coCreateOk then ([], .error "Failed to create IFileOperation")
  else if !env.destItemOk then (fileOpPre hwnd, .error "Failed to create destination item")
  else
    let t := performTail env
    (fileOpPre hwnd ++ handshakeEvents env hwnd ++ t.1, t.2.map (fun _ => []))

/-- Model of delete_items_impl: no destination item is created; DeleteItem is
queued per path, then handshake and PerformOperations. -/
def delete_items_impl (env : ShellEnv) (paths : List String)
    (hwnd : Option Nat) : List StaEvent × Except String Unit :=
  if !env.coCreateOk then ([], .error "Failed to create IFileOperation")
  else
    let t := performTail env
    (fileOpPre hwnd ++ handshakeEvents env hwnd ++ t.1, t.2)

/-- Model of rename_item_impl: the item to rename must itself resolve, then
RenameItem is queued, handshake, PerformOperations. -/
def rename_item_impl (env : ShellEnv) (path : String) (new_name : String)
    (hwnd : Option Nat) : List StaEvent × Except String Unit :=
  if !env.coCreateOk then ([], .error "Failed to create IFileOperation")
  else if !env.renameItemOk then (fileOpPre hwnd, .error "Failed to create item")
  else
    let t := performTail env
    (fileOpPre hwnd ++ handshakeEvents env hwnd ++ t.1, t.2)

/-- Model of paste_items_impl: like move or copy according to is_move; on
success the source replies with the pasted path list. -/
def paste_items_impl (env : ShellEnv) (paths : List String) (target_path : String)
    (is_move : Bool) (hwnd : Option Nat) : List StaEvent × Except String (List String) :=
  if !env.coCreateOk then ([], .error "Failed to create IFileOperation")
  else if !env.destItemOk then (fileOpPre hwnd, .error "Failed to create destination item")
  else
    let t := performTail env
    (fileOpPre hwnd ++ handshakeEvents env hwnd ++ t.1, t.2.map (fun _ => paths))

/-- Model of empty_recycle_bin_impl: one SHEmptyRecycleBinW call; no
notify_refresh on either path. -/
def empty_recycle_bin_impl (env : ShellEnv) :
    List StaEvent × Except String Unit :=
  if env.recycleOk then ([], .ok ())
  else ([], .error "Failed to empty recycle bin")

/-! ## STA worker processing loop (sta_worker.rs, StaWorker::new) -/

/-- World state visible to one command execution: the shell-call outcomes
and the result the enumeration of a listing would produce. -/
structure StaWorld where
  shell : ShellEnv
  listing : Except String (List FileEntry)

/-- Events of processing a single received command, ending with the send on
the command's own response channel (let _ = response.send(result) in the
source: every match arm sends exactly once). -/
def staStepTrace (w : StaWorld) (c : StaCommand) : List StaEvent :=
  let implEvents : List StaEvent :=
    match c with
    | .listFiles _ _ _ => []
    | .emptyRecycleBin _ => (empty_recycle_bin_impl w.shell).1
    | .dropItems files tp hwnd _ => (drop_items_impl w.shell files tp hwnd).1
    | .moveItems paths tp hwnd _ => (move_items_impl w.shell paths tp hwnd).1
    | .deleteItems paths hwnd _ => (delete_items_impl w.shell paths hwnd).1
    | .renameItem p n hwnd _ => (rename_item_impl w.shell p n hwnd).1
    | .pasteItems paths tp im hwnd _ => (paste_items_impl w.shell paths tp im hwnd).1
  implEvents ++ [.sendReply c.response]

/-- Reply produced by processing a single received command: the channel it is
sent on and the payload. -/
def staStepReply (w : StaWorld) (c : StaCommand) : Nat × ReplyVal :=
  match c with
  | .listFiles _ _ ch => (ch, .files w.listing)
  | .emptyRecycleBin ch => (ch, .unitRes (empty_recycle_bin_impl w.shell).2)
  | .dropItems files tp hwnd ch => (ch, .pathList (drop_items_impl w.shell files tp hwnd).2)
  | .moveItems paths tp hwnd ch => (ch, .unitRes (move_items_impl w.shell paths tp hwnd).2)
  | .deleteItems paths hwnd ch => (ch, .unitRes (delete_items_impl w.shell paths hwnd).2)
  | .renameItem p n hwnd ch => (ch, .unitRes (rename_item_impl w.shell p n hwnd).2)
  | .pasteItems paths tp im hwnd ch => (ch, .pathList (paste_items_impl w.shell paths tp im hwnd).2)

/-- Model of the worker processing loop (while let Ok(cmd) = rx.recv()): the
received commands are processed strictly one at a time in FIFO order, each
paired with the world state current when it runs, and each produces exactly
one reply. -/
def staWorkerLoop (xs : List (StaWorld × StaCommand)) : List (Nat × ReplyVal) :=
  xs.map (fun p => staStepReply p.1 p.2)

/-! ## Refresh notification (claim C3) -/

/-- Statement pattern for claim C3: the trace of one command execution ends
with the refresh-tab emission immediately followed by the reply send, so the
refresh is emitted before the reply. -/
def refreshThenReply (tr : List StaEvent) (ch : Nat) : Prop :=
  ∃ pre, tr = pre ++ [StaEvent.refreshTab, StaEvent.sendReply ch]

/-- Shell environment in which every OS call succeeds. -/
def allOkShell : ShellEnv :=
  { coCreateOk := true, destItemOk := true, renameItemOk := true,
    performOk := true, recycleOk := true, handshakeOk := fun _ => true }

/-- World in which every OS call succeeds and listings are empty. -/
def allOkWorld : StaWorld := { shell := allOkShell, listing := .ok [] }

/-! ## Extraction progress reporting (extraction.rs, report_progress) -/

/-- Payload of one extraction-progress event (struct ProgressPayload). -/
structure ProgressPayload where
  percentage : Nat
  current_file : String
deriving Repr, DecidableEq

/-- Integer percentage of bytes written over total bytes, capped at 100,
as computed by report_progress (the source computes it in f64 and truncates
to an integer; the model uses exact Nat division, which agrees with the f64
computation on all byte counts an archive can hold). -/
def progressPct (bytesWritten totalBytes : Nat) : Nat :=
  min (bytesWritten * 100 / totalBytes) 100

/-- Model of report_progress in extraction.rs: does nothing when totalBytes
is 0 or when the integer percentage has not advanced past last_pct; otherwise
updates last_pct and emits exactly one event carrying the new percentage.
Returns the updated last_pct and the emitted event, if any. -/
def report_progress (last_pct : Nat) (bytes_written total_bytes : Nat)
    (current_file : String) : Nat × Option ProgressPayload :=
  if total_bytes = 0 then (last_pct, none)
  else
    let pct := progressPct bytes_written total_bytes
    if pct ≤ last_pct then (last_pct, none)
    else (pct, some { percentage := pct, current_file := current_file })

/-- One extraction run as the sequence of (bytes_written, current_file)
values at which report_progress is called (bytes_written is cumulative in
the source; no monotonicity of the inputs is needed for the claim).  Returns
the final last_pct and the emitted events in order. -/
def runProgress (total_bytes : Nat) : Nat → List (Nat × String) → Nat × List ProgressPayload
  | last_pct, [] => (last_pct, [])
  | last_pct, u :: us =>
    let r := report_progress last_pct u.1 total_bytes u.2
    let rest := runProgress total_bytes r.1 us
    (rest.1, (r.2.toList) ++ rest.2)

/-! ## Path construction helpers (extraction.rs, lib.rs) -/

/-- Windows path separator used by Path::join. -/
def pathSep : Char := '\\'

/-- Model of Path::new(parent).join(name): paths are character lists and the
join inserts one separator. -/
def joinPath (parent name : List Char) : List Char := parent ++ pathSep :: name

/-- Decimal digit character (models the formatting of one digit by the Rust
integer Display implementation). -/
def digitChar (d : Nat) : Char := Char.ofNat (48 + d)

/-- Decimal rendering of a Nat, most significant digit first, with explicit
fuel so that the definition is structural (the fuel n + 1 always suffices). -/
def natDigitsAux : Nat → Nat → List Char
  | 0, _ => []
  | fuel + 1, n =>
    if n < 10 then [digitChar n]
    else natDigitsAux fuel (n / 10) ++ [digitChar (n % 10)]

/-- Model of the decimal formatting of a counter by format! in the source. -/
def natDigits (n : Nat) : List Char := natDigitsAux (n + 1) n

/-- Numeric value of a digit character. -/
def digitVal (c : Char) : Nat := c.toNat - 48

/-- Decimal parsing, the left inverse of natDigits used to prove that
rendering is injective. -/
def parseDigits (l : List Char) : Nat := l.foldl (fun a c => a * 10 + digitVal c) 0

/-- Search loop shared by get_unique_dir (extraction.rs) and
get_next_available_path (lib.rs): starting at index k, return the first
candidate f k, f (k+1), ... that is not among the occupied paths, with
explicit fuel.  The filesystem is modelled by the finite list of occupied
paths, so fuel occupied.length + 1 always suffices. -/
def searchFrom (occupied : List (List Char)) (f : Nat → List Char) :
    Nat → Nat → Option (List Char)
  | 0, _ => none
  | fuel + 1, k =>
    if f k ∈ occupied then searchFrom occupied f fuel (k + 1) else some (f k)

/-- Candidate names tried by get_unique_dir on a collision:
parent joined with (name followed by a parenthesized counter). -/
def uniqueCand (parent name : List Char) (k : Nat) : List Char :=
  joinPath parent (name ++ [' ', '('] ++ natDigits k ++ [')'])

/-- Model of get_unique_dir in extraction.rs: the base path if free, else the
first free candidate with counter 2, 3, ... (fuel occupied.length + 1 is
enough, as proved below). -/
def get_unique_dir (occupied : List (List Char)) (parent name : List Char) : List Char :=
  let base := joinPath parent name
  if base ∈ occupied then
    (searchFrom occupied (uniqueCand parent name) (occupied.length + 1) 2).getD base
  else base

/-! ## Copy-name generation (lib.rs, get_next_available_path) -/

/-- Index of the last occurrence of a character in a list, if any. -/
def lastIdxOf (c : Char) : List Char → Option Nat
  | [] => none
  | x :: xs =>
    match lastIdxOf c xs with
    | some i => some (i + 1)
    | none => if x = c then some 0 else none

/-- Model of the file_stem and extension split performed on the base path:
the stem is the part before the last dot and the extension is kept with its
leading dot (format!-ready), matching Rust Path semantics where a name
without a dot, or whose only dot is leading, has no extension. -/
def splitStemExt (name : List Char) : List Char × List Char :=
  match lastIdxOf '.' name with
  | none => (name, [])
  | some 0 => (name, [])
  | some i => (name.take i, '.' :: name.drop (i + 1))

/-- Characters of the literal " - Copia" inserted by get_next_available_path. -/
def copiaTag : List Char := [' ', '-', ' ', 'C', 'o', 'p', 'i', 'a']

/-- Candidate names tried by get_next_available_path when the plain copy name
is also taken: stem, " - Copia (k)" and the extension. -/
def copiaCand (target_dir stem ext : List Char) (k : Nat) : List Char :=
  joinPath target_dir (stem ++ copiaTag ++ [' ', '('] ++ natDigits k ++ [')'] ++ ext)

/-- Model of get_next_available_path in lib.rs: the desired name if free, the
" - Copia" variant if the name is taken, and otherwise the first free
" - Copia (k)" variant counting k upward from 2. -/
def get_next_available_path (occupied : List (List Char))
    (target_dir original_name : List Char) : List Char :=
  let base := joinPath target_dir original_name
  if base ∈ occupied then
    let se := splitStemExt original_name
    let copy_path := joinPath target_dir (se.1 ++ copiaTag ++ se.2)
    if copy_path ∈ occupied then
      (searchFrom occupied (copiaCand target_dir se.1 se.2) (occupied.length + 1) 2).getD
        copy_path
    else copy_path
  else base

/-! ## ZIP extraction (extraction.rs: extract_zip, get_zip_single_root) -/

/-- Leading component of a ZIP entry name up to and including the first
slash, if any (name[..=first_slash] in get_zip_single_root). -/
def rootOf : List Char → Option (List Char)
  | [] => none
  | c :: cs => if c = '/' then some [c] else (rootOf cs).map (fun r => c :: r)

/-- Accumulation loop of get_zip_single_root: gather the distinct top-level
components of every entry, failing (None) as soon as an entry has no slash,
exactly as the early return in the source. -/
def collectRoots : List (List Char) → List (List Char) → Option (List (List Char))
  | [], acc => some acc
  | n :: ns, acc =>
    match rootOf n with
    | some r => collectRoots ns (if r ∈ acc then acc else r :: acc)
    | none => none

/-- Model of get_zip_single_root in extraction.rs: the single common
top-level folder of all entries, when there is exactly one. -/
def get_zip_single_root (names : List (List Char)) : Option (List Char) :=
  if names.isEmpty then none
  else
    match collectRoots names [] with
    | some [r] => some r
    | _ => none

/-- Model of str strip on a leading pattern, character by character. -/
def stripLeading : List Char → List Char → Option (List Char)
  | [], n => some n
  | _ :: _, [] => none
  | r :: rs, c :: cs => if r = c then stripLeading rs cs else none

/-- Relative output path of one entry: the entry name with the single root
removed when one exists (strip_prefix(root).unwrap_or(name)). -/
def zipEntryRel (root? : Option (List Char)) (n : List Char) : List Char :=
  match root? with
  | some r => (stripLeading r n).getD n
  | none => n

/-- Directory entries of a ZIP are those whose name ends with a slash. -/
def isDirName (n : List Char) : Bool := n.getLast? == some '/'

/-- Filesystem effects of an extraction. -/
inductive FsEffect where
  | mkdirAll (path : List Char)
  | mkdirParentOf (file : List Char)
  | createFile (path : List Char)
deriving Repr, DecidableEq

/-- Environment of one extract_zip call: whether the archive file opens,
whether its central directory parses, which paths already exist under the
target, and whether each entry extracts without an I/O error. -/
structure ZipEnv where
  openOk : Bool
  readOk : Bool
  occupied : List (List Char)
  entryOk : Nat → Bool

/-- Per-entry loop of extract_zip: skip entries whose relative path is empty,
create directories for directory entries, create parent directories and the
file for file entries, abort on the first entry error keeping prior effects. -/
def extractEntries (env : ZipEnv) (root? : Option (List Char)) (output_dir : List Char) :
    Nat → List (List Char) → List FsEffect × Except String Unit
  | _, [] => ([], .ok ())
  | i, n :: ns =>
    if !env.entryOk i then ([], .error "Failed to read entry")
    else
      let rel := zipEntryRel root? n
      if rel = [] then extractEntries env root? output_dir (i + 1) ns
      else
        let out := joinPath output_dir rel
        let rest := extractEntries env root? output_dir (i + 1) ns
        if isDirName n then (FsEffect.mkdirAll out :: rest.1, rest.2)
        else (FsEffect.mkdirParentOf out :: FsEffect.createFile out :: rest.1, rest.2)

/-- Model of extract_zip in extraction.rs: open, parse, reject an empty
archive before any directory is created, then choose the unique output
directory, create it, and extract every entry with the single-root component
stripped when one exists.  Returns the effect trace and the result. -/
def extract_zip (env : ZipEnv) (names : List (List Char)) (target_dir stem : List Char) :
    List FsEffect × Except String (List Char) :=
  if !env.openOk then ([], .error "Failed to open archive")
  else if !env.readOk then ([], .error "Failed to read ZIP archive")
  else if names.length = 0 then ([], .error "Archive is empty")
  else
    let output_dir := get_unique_dir env.occupied target_dir stem
    let root? := get_zip_single_root names
    let r := extractEntries env root? output_dir 0 names
    (FsEffect.mkdirAll output_dir :: r.1, r.2.map (fun _ => output_dir))

/-- Environment in which every filesystem call of an extraction succeeds and
the target directory is empty. -/
def allOkZip : ZipEnv :=
  { openOk := true, readOk := true, occupied := [], entryOk := fun _ => true }

/-! ## Drop overlay state machine (drop_overlay.rs) -/

/-- Timer period, in milliseconds, of the overlay self-management timer
(SetTimer(.., 1, 50, ..) in show_overlay). -/
def overlayTimerPeriodMillis : Nat := 50

/-- Overlay lifecycle states: hidden (window hidden, timer killed) and armed
(window shown, timer running), the two states reachable in the source, where
every dismissal path runs KillTimer and ShowWindow(SW_HIDE) together. -/
inductive OverlayState where
  | hidden
  | armed
deriving Repr, DecidableEq

/-- Environment sampled by one WM_TIMER tick of overlay_wnd_proc:
whether GetCursorPos succeeded, whether the cursor is inside the owner
window rectangle, the async key state of the left and right mouse buttons
and of Escape. -/
structure TickEnv where
  cursorPosOk : Bool
  insideApp : Bool
  lButtonDown : Bool
  rButtonDown : Bool
  escDown : Bool
deriving Repr, DecidableEq

/-- Events driving the overlay: the show_overlay command, a WM_TIMER tick
with its sampled environment, a WM_LBUTTONDOWN on the overlay, a
WM_DROPFILES drop, and the hide_overlay command. -/
inductive OverlayEvent where
  | showCall
  | timerTick (env : TickEnv)
  | lButtonDownMsg
  | dropFiles (paths : List String)
  | hideCall
deriving Repr, DecidableEq

/-- Dismissal condition checked by the WM_TIMER handler: the cursor position
was read and either the cursor is outside the owner window, or no mouse
button is held, or Escape is down. -/
def tickDismisses (env : TickEnv) : Bool :=
  env.cursorPosOk &&
    (!env.insideApp || !(env.lButtonDown || env.rButtonDown) || env.escDown)

/-- Transition function of the overlay: show_overlay sets the timer and shows
the window (Armed); a timer tick whose check fires kills the timer and hides
the window in that same tick; WM_LBUTTONDOWN, WM_DROPFILES and hide_overlay
also kill the timer and hide. -/
def overlayStep (s : OverlayState) : OverlayEvent → OverlayState
  | .showCall => .armed
  | .timerTick env => if tickDismisses env then .hidden else s
  | .lButtonDownMsg => .hidden
  | .dropFiles _ => .hidden
  | .hideCall => .hidden

/-! ## Directory listing order (sta_worker.rs, list_files_impl sort) -/

/-- UTF-8 encoded size of a code point (len_utf8 of a Rust char). -/
def cpBytes (n : Nat) : Nat :=
  if n ≤ 0x7F then 1 else if n ≤ 0x7FF then 2 else if n ≤ 0xFFFF then 3 else 4

/-- UTF-8 byte length of a character list (String::len of a Rust String). -/
def byteLen (l : List Char) : Nat := (l.map (fun c => cpBytes c.toNat)).sum

/-- The sort comparator folds every character with
to_lowercase().next().unwrap().  That mapping is fixed external data (the
Unicode lowercase table), so the model carries it as an explicit parameter
fold on code points: statements below are proved for every folding, or
instantiated at foldings that agree with the Unicode table on the
characters actually involved.  lowerKey is the folded code-point sequence
of a name. -/
def lowerKey (fold : Nat → Nat) (l : List Char) : List Nat :=
  l.map (fun c => fold c.toNat)

/-- Model of the character loop of the sort closure in list_files_impl:
walk both names in step; at the first position whose folded code points
differ return their order; if one name runs out, compare the byte lengths
passed in (a.name.len().cmp(b.name.len()) in the source). -/
def cmpNameGo (fold : Nat → Nat) : List Char → List Char → Nat → Nat → Ordering
  | a :: as, b :: bs, la, lb =>
    if fold a.toNat = fold b.toNat then cmpNameGo fold as bs la lb
    else compare (fold a.toNat) (fold b.toNat)
  | _, _, la, lb => compare la lb

/-- Model of the full comparator closure of par_sort_unstable_by in
list_files_impl: directories first, then the case-insensitive character
walk with the byte-length tiebreak. -/
def cmpFileEntry (fold : Nat → Nat) (a b : FileEntry) : Ordering :=
  if a.is_dir && !b.is_dir then .lt
  else if !a.is_dir && b.is_dir then .gt
  else cmpNameGo fold a.name.data b.name.data
    (byteLen a.name.data) (byteLen b.name.data)

/-- Boolean ordering predicate induced by the comparator, the standard
notion of sortedness for a comparison sort. -/
def entryLe (fold : Nat → Nat) (a b : FileEntry) : Bool :=
  cmpFileEntry fold a b != Ordering.gt

/-- Model of the par_sort_unstable_by call: a comparison sort by the
comparator closure (merge sort in the model; the source sorts in place;
any comparison sort is only specified when the comparator is a total
preorder, which the theorems below track explicitly). -/
def sortEntries (fold : Nat → Nat) (l : List FileEntry) : List FileEntry :=
  l.mergeSort (entryLe fold)

/-- Group rank used to state the dirs-first property: directories first. -/
def entryRank (e : FileEntry) : Nat := if e.is_dir then 0 else 1

/-- Truncated case-insensitive comparison of two names as worded by the
claim: compare character-wise after case folding and treat exhaustion of
either name as equality under the comparison. -/
def ciCmp (fold : Nat → Nat) : List Char → List Char → Ordering
  | a :: as, b :: bs =>
    if fold a.toNat = fold b.toNat then ciCmp fold as bs
    else compare (fold a.toNat) (fold b.toNat)
  | _, _ => .eq

/-- Canonical order stated by the claim: all directories precede all
non-directories; within one group names are ordered by the character-wise
case-insensitive comparison; names equal under that comparison are ordered
shorter-first by byte length. -/
def claimOrder (fold : Nat → Nat) (a b : FileEntry) : Prop :=
  (a.is_dir = true ∧ b.is_dir = false) ∨
  (a.is_dir = b.is_dir ∧
    (ciCmp fold a.name.data b.name.data = .lt ∨
      (ciCmp fold a.name.data b.name.data = .eq ∧
        byteLen a.name.data ≤ byteLen b.name.data)))

instance claimOrderDecidable (fold : Nat → Nat) (a b : FileEntry) :
    Decidable (claimOrder fold a b) :=
  inferInstanceAs (Decidable ((a.is_dir = true ∧ b.is_dir = false) ∨
    (a.is_dir = b.is_dir ∧
      (ciCmp fold a.name.data b.name.data = .lt ∨
        (ciCmp fold a.name.data b.name.data = .eq ∧
          byteLen a.name.data ≤ byteLen b.name.data)))))

/-- Byte-size tameness of one entry name under a folding: every character
of the name keeps its UTF-8 size when folded.  Under the Unicode mapping
all ASCII names are tame; the rare length-changing case mappings (such as
U+212A KELVIN SIGN, a 3-byte character whose lower case is the 1-byte k)
make a name untame. -/
def tameName (fold : Nat → Nat) (e : FileEntry) : Prop :=
  ∀ c ∈ e.name.data, cpBytes (fold c.toNat) = cpBytes c.toNat

instance tameNameDecidable (fold : Nat → Nat) (e : FileEntry) :
    Decidable (tameName fold e) :=
  inferInstanceAs (Decidable (∀ c ∈ e.name.data,
    cpBytes (fold c.toNat) = cpBytes c.toNat))

/-- Lexicographic comparison of code-point lists, the total preorder the
comparator turns out to implement on one group of tame names. -/
def lexCmp : List Nat → List Nat → Ordering
  | [], [] => .eq
  | [], _ :: _ => .lt
  | _ :: _, [] => .gt
  | a :: as, b :: bs => if a = b then lexCmp as bs else compare a b

/-- Environment of one list_files_impl call for a concrete filesystem path:
whether SHCreateItemFromParsingName and BindToHandler succeed, and the
enumerated items, each with its hidden attribute. -/
structure ListEnv where
  createItemOk : Bool
  bindOk : Bool
  enumerated : List (FileEntry × Bool)
  recycleList : List FileEntry
  drivesList : List FileEntry

/-- Entries surviving the hidden-attribute filter of the enumeration loop. -/
def visibleEntries (env : ListEnv) (show_hidden : Bool) : List FileEntry :=
  (if show_hidden then env.enumerated
   else env.enumerated.filter (fun p => !p.2)).map Prod.fst

/-- Model of list_files_impl: the recycle-bin virtual path and the empty
drives path return their own listings (built fresh, no sort), any other path
enumerates the folder, filters hidden items unless requested, and sorts the
entries with the comparator on every call (no cache is consulted). -/
def list_files_impl (fold : Nat → Nat) (env : ListEnv) (path : String)
    (show_hidden : Bool) : Except String (List FileEntry) :=
  if path = "shell:RecycleBin" then .ok env.recycleList
  else if path = "" then .ok env.drivesList
  else if !env.createItemOk then .error "Failed to access path"
  else if !env.bindOk then .error "Access Denied or folder empty"
  else .ok (sortEntries fold (visibleEntries env show_hidden))

/-- Folding that agrees with the Unicode lowercase mapping on every ASCII
character; used to instantiate the listing theorem on ASCII names. -/
def asciiFold (n : Nat) : Nat := if 65 ≤ n ∧ n ≤ 90 then n + 32 else n

/-- Folding that agrees with the Unicode lowercase mapping on every ASCII
character and on U+212A KELVIN SIGN, whose lower case is U+006B (the
UnicodeData entry 212A maps to 006B): exactly the characters appearing in
the counterexample names below. -/
def kelvinFold (n : Nat) : Nat :=
  if n = 0x212A then 0x6B else if 65 ≤ n ∧ n ≤ 90 then n + 32 else n

/-- Plain file entry carrying a given name, used by the counterexample. -/
def plainFile (name : List Char) : FileEntry :=
  { name := String.mk name, path := "C", is_dir := false, size := 0,
    formatted_size := "", file_type := "", created_at := "", modified_at := "",
    is_shortcut := false, disk_info := none, modified_timestamp := 0,
    dimensions := none }

/-- The counterexample listing: the names KELVIN SIGN (3 bytes, one
character), KELVIN SIGN followed by b (4 bytes), and kc (2 bytes).  Under
the Unicode folding the canonical order demands the first before the second
(equal under the case-insensitive comparison, 3 vs 4 bytes), the second
before the third (b before c at the second character) and the third before
the first (equal under the comparison, 2 vs 3 bytes): a cycle, so no output
order of any sort can satisfy the canonical description. -/
def kelvinEntries : List FileEntry :=
  [plainFile [Char.ofNat 0x212A],
   plainFile [Char.ofNat 0x212A, 'b'],
   plainFile ['k', 'c']]


/-! ## Theorems -/

/-! ## Shared lemmas about the worker loop -/

/-- Reply channel of a processed command is the channel the command carries. -/
theorem staStepReply_fst (w : StaWorld) (c : StaCommand) :
    (staStepReply w c).1 = c.response := by
  cases c <;> rfl

/-- Claim C1: the STA worker processing loop produces exactly one reply per
received command, on that command's own one-shot channel, in submission
(FIFO) order: the reply list has the same length as the command list, its
i-th reply is sent on the i-th command's channel, and for every channel the
number of replies sent on it equals the number of commands carrying it. -/
theorem sta_queue_exactly_one_reply_per_command (xs : List (StaWorld × StaCommand)) :
    (staWorkerLoop xs).length = xs.length ∧
    (staWorkerLoop xs).map Prod.fst = xs.map (fun p => p.2.response) ∧
    ∀ ch : Nat, (staWorkerLoop xs).countP (fun r => r.1 == ch)
      = xs.countP (fun p => p.2.response == ch) := by
  refine ⟨by simp [staWorkerLoop], ?_, ?_⟩
  · simp only [staWorkerLoop, List.map_map]
    exact List.map_congr_left (fun p _ => by simp [Function.comp, staStepReply_fst])
  · intro ch
    simp only [staWorkerLoop, List.countP_map]
    exact List.countP_congr (fun p _ => by simp [Function.comp, staStepReply_fst])

/-! ## Handshake loop lemmas -/

/-- The activation loop never runs more iterations than its budget. -/
theorem lockdownLoop_iterations_le (ok : Nat → Bool) :
    ∀ n a, (lockdownLoop ok a n).1 ≤ n := by
  intro n
  induction n with
  | zero => intro a; simp [lockdownLoop]
  | succ m ih =>
    intro a
    simp only [lockdownLoop]
    split
    · simp
    · exact Nat.succ_le_succ (ih (a + 1))

/-- If no attempt in the budget converges, the loop runs the whole budget,
sleeping once per iteration, and reports no convergence. -/
theorem lockdownLoop_all_fail (ok : Nat → Bool) :
    ∀ n a, (∀ i, i < n → ok (a + i) = false) →
      lockdownLoop ok a n = (n, false, n) := by
  intro n
  induction n with
  | zero => intro a _; rfl
  | succ m ih =>
    intro a h
    have h0 : ok a = false := by simpa using h 0 (Nat.succ_pos m)
    simp only [lockdownLoop, h0, Bool.false_eq_true, if_false]
    have := ih (a + 1) (fun i hi => by
      have := h (i + 1) (Nat.succ_lt_succ hi)
      simpa [Nat.add_assoc, Nat.add_comm 1 i] using this)
    simp [this]

/-- The loop stops at the first converging attempt: if attempt i is the first
one that succeeds and it is within budget, exactly i+1 iterations run, with
one 5 ms sleep after each of the i failed attempts and none after the
successful one. -/
theorem lockdownLoop_first_success (ok : Nat → Bool) :
    ∀ n a i, i < n → ok (a + i) = true → (∀ j, j < i → ok (a + j) = false) →
      lockdownLoop ok a n = (i + 1, true, i) := by
  intro n
  induction n with
  | zero => intro a i hi; omega
  | succ m ih =>
    intro a i hi hok hmin
    cases i with
    | zero =>
      have h0 : ok a = true := by simpa using hok
      simp [lockdownLoop, h0]
    | succ k =>
      have h0 : ok a = false := by simpa using hmin 0 (Nat.succ_pos k)
      simp only [lockdownLoop, h0, Bool.false_eq_true, if_false]
      have := ih (a + 1) k (Nat.lt_of_succ_lt_succ hi)
        (by simpa [Nat.add_assoc, Nat.add_comm 1 k] using hok)
        (fun j hj => by
          have := hmin (j + 1) (Nat.succ_lt_succ hj)
          simpa [Nat.add_assoc, Nat.add_comm 1 j] using this)
      simp [this]

/-- Claim C2: with a non-null owner window, the handshake runs its activation
loop at most 100 times with a 5 ms sleep between attempts, exits early at the
first attempt on which both the foreground and the active window queries
return the owner, re-asserts foreground permission exactly once after the
loop, and on non-convergence returns normally (no error) with the Shell call
still performed afterwards. -/
theorem handshake_bounded_first_success (hwnd : Nat) (ok : Nat → Bool) (h : hwnd ≠ 0) :
    (synchronize_handshake hwnd ok).iterations ≤ handshakeMaxAttempts ∧
    handshakeMaxAttempts = 100 ∧
    handshakeSleepMillis = 5 ∧
    (synchronize_handshake hwnd ok).finalAllows = 1 ∧
    (∀ i, i < 100 → ok i = true → (∀ j, j < i → ok j = false) →
      (synchronize_handshake hwnd ok).iterations = i + 1 ∧
      (synchronize_handshake hwnd ok).converged = true ∧
      (synchronize_handshake hwnd ok).sleeps = i) ∧
    ((∀ i, i < 100 → ok i = false) →
      (synchronize_handshake hwnd ok).iterations = 100 ∧
      (synchronize_handshake hwnd ok).converged = false ∧
      (synchronize_handshake hwnd ok).sleeps = 100) ∧
    (∀ (env : ShellEnv) (paths : List String) (tp : String),
      env.coCreateOk = true → env.destItemOk = true →
      StaEvent.performOperations env.performOk ∈
        (move_items_impl env paths tp (some hwnd)).1) := by
  refine ⟨?_, rfl, rfl, ?_, ?_, ?_, ?_⟩
  · simp only [synchronize_handshake, h, if_false]
    exact lockdownLoop_iterations_le ok handshakeMaxAttempts 0
  · simp [synchronize_handshake, h]
  · intro i hi hok hmin
    have hl := lockdownLoop_first_success ok handshakeMaxAttempts 0 i
      (by simpa [handshakeMaxAttempts] using hi) (by simpa using hok)
      (fun j hj => by simpa using hmin j hj)
    simp only [handshakeMaxAttempts] at hl
    simp [synchronize_handshake, h, hl, handshakeMaxAttempts]
  · intro hall
    have hl := lockdownLoop_all_fail ok handshakeMaxAttempts 0
      (fun i hi => by
        have : i < 100 := by simpa [handshakeMaxAttempts] using hi
        simpa using hall i this)
    simp only [handshakeMaxAttempts] at hl
    simp [synchronize_handshake, h, hl, handshakeMaxAttempts]
  · intro env paths tp hc hd
    cases hp : env.performOk with
    | true => simp [move_items_impl, hc, hd, performTail, hp]
    | false => simp [move_items_impl, hc, hd, performTail, hp]

/-- Witness for C2 at a concrete oracle: the owner window 1 is non-null and
the handshake loop obeys the bound there. -/
theorem handshake_bounded_first_success_witness :
    (synchronize_handshake 1 (fun i => i == 3)).iterations ≤ handshakeMaxAttempts :=
  (handshake_bounded_first_success 1 (fun i => i == 3) (by decide)).1

/-- Refresh events never occur in the command preamble. -/
theorem refresh_not_mem_fileOpPre (hw : Option Nat) :
    StaEvent.refreshTab ∉ fileOpPre hw := by
  cases hw <;> simp [fileOpPre]

/-- Refresh events never occur in the handshake step. -/
theorem refresh_not_mem_handshakeEvents (env : ShellEnv) (hw : Option Nat) :
    StaEvent.refreshTab ∉ handshakeEvents env hw := by
  simp only [handshakeEvents]
  split <;> simp

/-- Counterexample to claim C3 as stated: EmptyRecycleBin is a mutating STA
command, and in a world where the SHEmptyRecycleBinW call succeeds its reply
is Ok, yet its execution trace contains no refresh-tab emission at all. -/
theorem refresh_claim_fails_on_empty_recycle_bin :
    (staStepReply allOkWorld (StaCommand.emptyRecycleBin 0)).2
      = ReplyVal.unitRes (.ok ()) ∧
    StaEvent.refreshTab ∉ staStepTrace allOkWorld (StaCommand.emptyRecycleBin 0) := by
  constructor
  · rfl
  · simp [staStepTrace, empty_recycle_bin_impl, allOkWorld, allOkShell]

/-- Mapping a success value does not change whether an Except is Ok. -/
theorem isOk_map_except (r : Except String Unit) (f : Unit → List String) :
    (r.map f).isOk = r.isOk := by
  cases r <;> rfl

/-- Common tail of the five IFileOperation commands: when PerformOperations
succeeds, the refresh emission sits immediately before the reply send; when
it fails, no refresh is in the trace. -/
theorem tail_refresh (env : ShellEnv) (hw : Option Nat) (ch : Nat) :
    ((performTail env).2.isOk = true →
      refreshThenReply
        ((fileOpPre hw ++ handshakeEvents env hw ++ (performTail env).1)
          ++ [StaEvent.sendReply ch]) ch) ∧
    ((performTail env).2.isOk = false →
      StaEvent.refreshTab ∉
        (fileOpPre hw ++ handshakeEvents env hw ++ (performTail env).1)
          ++ [StaEvent.sendReply ch]) := by
  cases hp : env.performOk with
  | true =>
    refine ⟨fun _ => ?_, fun hf => ?_⟩
    · exact ⟨fileOpPre hw ++ handshakeEvents env hw ++ [StaEvent.performOperations true],
        by simp [performTail, hp]⟩
    · simp [performTail, hp, Except.isOk, Except.toBool] at hf
  | false =>
    refine ⟨fun ht => ?_, fun _ => ?_⟩
    · simp [performTail, hp, Except.isOk, Except.toBool] at ht
    · simp [performTail, hp, refresh_not_mem_fileOpPre, refresh_not_mem_handshakeEvents]

/-- Claim C3 (amended): for the five IFileOperation mutating commands
(DropItems, MoveItems, DeleteItems, RenameItem, PasteItems), success emits
exactly the refresh-tab notification immediately before the reply is sent,
and failure of the Shell call emits no refresh; EmptyRecycleBin never emits
a refresh notification, even on success. -/
theorem refresh_iff_success_for_mutations (w : StaWorld) (files paths : List String)
    (tp p nn : String) (im : Bool) (hw : Option Nat) (ch : Nat) :
    (((drop_items_impl w.shell files tp hw).2.isOk = true →
        refreshThenReply (staStepTrace w (StaCommand.dropItems files tp hw ch)) ch) ∧
      ((drop_items_impl w.shell files tp hw).2.isOk = false →
        StaEvent.refreshTab ∉ staStepTrace w (StaCommand.dropItems files tp hw ch))) ∧
    (((move_items_impl w.shell paths tp hw).2.isOk = true →
        refreshThenReply (staStepTrace w (StaCommand.moveItems paths tp hw ch)) ch) ∧
      ((move_items_impl w.shell paths tp hw).2.isOk = false →
        StaEvent.refreshTab ∉ staStepTrace w (StaCommand.moveItems paths tp hw ch))) ∧
    (((delete_items_impl w.shell paths hw).2.isOk = true →
        refreshThenReply (staStepTrace w (StaCommand.deleteItems paths hw ch)) ch) ∧
      ((delete_items_impl w.shell paths hw).2.isOk = false →
        StaEvent.refreshTab ∉ staStepTrace w (StaCommand.deleteItems paths hw ch))) ∧
    (((rename_item_impl w.shell p nn hw).2.isOk = true →
        refreshThenReply (staStepTrace w (StaCommand.renameItem p nn hw ch)) ch) ∧
      ((rename_item_impl w.shell p nn hw).2.isOk = false →
        StaEvent.refreshTab ∉ staStepTrace w (StaCommand.renameItem p nn hw ch))) ∧
    (((paste_items_impl w.shell paths tp im hw).2.isOk = true →
        refreshThenReply (staStepTrace w (StaCommand.pasteItems paths tp im hw ch)) ch) ∧
      ((paste_items_impl w.shell paths tp im hw).2.isOk = false →
        StaEvent.refreshTab ∉ staStepTrace w (StaCommand.pasteItems paths tp im hw ch))) ∧
    StaEvent.refreshTab ∉ staStepTrace w (StaCommand.emptyRecycleBin ch) := by
  have htail := tail_refresh w.shell hw ch
  refine ⟨⟨?_, ?_⟩, ⟨?_, ?_⟩, ⟨?_, ?_⟩, ⟨?_, ?_⟩, ⟨?_, ?_⟩, ?_⟩
  · intro hok
    cases hc : w.shell.coCreateOk with
    | false => simp [drop_items_impl, hc, Except.isOk, Except.toBool] at hok
    | true =>
      cases hd : w.shell.destItemOk with
      | false => simp [drop_items_impl, hc, hd, Except.isOk, Except.toBool] at hok
      | true =>
        have : (performTail w.shell).2.isOk = true := by
          have h2 := isOk_map_except (performTail w.shell).2 (fun _ => [])
          simp [drop_items_impl, hc, hd] at hok
          rw [h2] at hok; exact hok
        simpa [staStepTrace, drop_items_impl, hc, hd] using htail.1 this
  · intro herr
    cases hc : w.shell.coCreateOk with
    | false => simp [staStepTrace, drop_items_impl, hc]
    | true =>
      cases hd : w.shell.destItemOk with
      | false => simp [staStepTrace, drop_items_impl, hc, hd, refresh_not_mem_fileOpPre]
      | true =>
        have : (performTail w.shell).2.isOk = false := by
          have h2 := isOk_map_except (performTail w.shell).2 (fun _ => [])
          simp [drop_items_impl, hc, hd] at herr
          rw [h2] at herr; exact herr
        simpa [staStepTrace, drop_items_impl, hc, hd] using htail.2 this
  · intro hok
    cases hc : w.shell.coCreateOk with
    | false => simp [move_items_impl, hc, Except.isOk, Except.toBool] at hok
    | true =>
      cases hd : w.shell.destItemOk with
      | false => simp [move_items_impl, hc, hd, Except.isOk, Except.toBool] at hok
      | true =>
        have : (performTail w.shell).2.isOk = true := by
          simpa [move_items_impl, hc, hd] using hok
        simpa [staStepTrace, move_items_impl, hc, hd] using htail.1 this
  · intro herr
    cases hc : w.shell.coCreateOk with
    | false => simp [staStepTrace, move_items_impl, hc]
    | true =>
      cases hd : w.shell.destItemOk with
      | false => simp [staStepTrace, move_items_impl, hc, hd, refresh_not_mem_fileOpPre]
      | true =>
        have : (performTail w.shell).2.isOk = false := by
          simpa [move_items_impl, hc, hd] using herr
        simpa [staStepTrace, move_items_impl, hc, hd] using htail.2 this
  · intro hok
    cases hc : w.shell.coCreateOk with
    | false => simp [delete_items_impl, hc, Except.isOk, Except.toBool] at hok
    | true =>
      have : (performTail w.shell).2.isOk = true := by
        simpa [delete_items_impl, hc] using hok
      simpa [staStepTrace, delete_items_impl, hc] using htail.1 this
  · intro herr
    cases hc : w.shell.coCreateOk with
    | false => simp [staStepTrace, delete_items_impl, hc]
    | true =>
      have : (performTail w.shell).2.isOk = false := by
        simpa [delete_items_impl, hc] using herr
      simpa [staStepTrace, delete_items_impl, hc] using htail.2 this
  · intro hok
    cases hc : w.shell.coCreateOk with
    | false => simp [rename_item_impl, hc, Except.isOk, Except.toBool] at hok
    | true =>
      cases hd : w.shell.renameItemOk with
      | false => simp [rename_item_impl, hc, hd, Except.isOk, Except.toBool] at hok
      | true =>
        have : (performTail w.shell).2.isOk = true := by
          simpa [rename_item_impl, hc, hd] using hok
        simpa [staStepTrace, rename_item_impl, hc, hd] using htail.1 this
  · intro herr
    cases hc : w.shell.coCreateOk with
    | false => simp [staStepTrace, rename_item_impl, hc]
    | true =>
      cases hd : w.shell.renameItemOk with
      | false => simp [staStepTrace, rename_item_impl, hc, hd, refresh_not_mem_fileOpPre]
      | true =>
        have : (performTail w.shell).2.isOk = false := by
          simpa [rename_item_impl, hc, hd] using herr
        simpa [staStepTrace, rename_item_impl, hc, hd] using htail.2 this
  · intro hok
    cases hc : w.shell.coCreateOk with
    | false => simp [paste_items_impl, hc, Except.isOk, Except.toBool] at hok
    | true =>
      cases hd : w.shell.destItemOk with
      | false => simp [paste_items_impl, hc, hd, Except.isOk, Except.toBool] at hok
      | true =>
        have : (performTail w.shell).2.isOk = true := by
          have h2 := isOk_map_except (performTail w.shell).2 (fun _ => paths)
          simp [paste_items_impl, hc, hd] at hok
          rw [h2] at hok; exact hok
        simpa [staStepTrace, paste_items_impl, hc, hd] using htail.1 this
  · intro herr
    cases hc : w.shell.coCreateOk with
    | false => simp [staStepTrace, paste_items_impl, hc]
    | true =>
      cases hd : w.shell.destItemOk with
      | false => simp [staStepTrace, paste_items_impl, hc, hd, refresh_not_mem_fileOpPre]
      | true =>
        have : (performTail w.shell).2.isOk = false := by
          have h2 := isOk_map_except (performTail w.shell).2 (fun _ => paths)
          simp [paste_items_impl, hc, hd] at herr
          rw [h2] at herr; exact herr
        simpa [staStepTrace, paste_items_impl, hc, hd] using htail.2 this
  · cases hr : w.shell.recycleOk <;>
      simp [staStepTrace, empty_recycle_bin_impl, hr]

/-- Witness for the amended claim C3 at a successful world: a successful
MoveItems execution has its refresh emission right before its reply. -/
theorem refresh_iff_success_for_mutations_witness :
    refreshThenReply
      (staStepTrace allOkWorld (StaCommand.moveItems ["a"] "b" (some 1) 7)) 7 :=
  (refresh_iff_success_for_mutations allOkWorld [] ["a"] "b" "" "" false (some 1) 7).2.1.1
    (by rfl)

/-- Every percentage emitted from a run started at last_pct is strictly above
last_pct, and the final last_pct is at least the initial one. -/
theorem runProgress_lb (total_bytes : Nat) :
    ∀ (us : List (Nat × String)) (l : Nat),
      l ≤ (runProgress total_bytes l us).1 ∧
      ∀ e ∈ (runProgress total_bytes l us).2, l < e.percentage := by
  intro us
  induction us with
  | nil => intro l; exact ⟨Nat.le_refl l, by simp [runProgress]⟩
  | cons u us ih =>
    intro l
    by_cases h0 : total_bytes = 0
    · have hr : report_progress l u.1 total_bytes u.2 = (l, none) := by
        simp [report_progress, h0]
      refine ⟨?_, ?_⟩
      · simpa [runProgress, hr] using (ih l).1
      · intro e he
        simp only [runProgress, hr] at he
        exact (ih l).2 e (by simpa using he)
    · by_cases hle : progressPct u.1 total_bytes ≤ l
      · have hr : report_progress l u.1 total_bytes u.2 = (l, none) := by
          simp [report_progress, h0, hle]
        refine ⟨?_, ?_⟩
        · simpa [runProgress, hr] using (ih l).1
        · intro e he
          simp only [runProgress, hr] at he
          exact (ih l).2 e (by simpa using he)
      · have hlt : l < progressPct u.1 total_bytes := Nat.lt_of_not_le hle
        have hr : report_progress l u.1 total_bytes u.2
            = (progressPct u.1 total_bytes,
               some { percentage := progressPct u.1 total_bytes, current_file := u.2 }) := by
          simp [report_progress, h0, Nat.not_le.mpr hlt]
        refine ⟨?_, ?_⟩
        · have := (ih (progressPct u.1 total_bytes)).1
          simp only [runProgress, hr]
          exact Nat.le_trans (Nat.le_of_lt hlt) this
        · intro e he
          simp only [runProgress, hr] at he
          rcases (by simpa using he) with h | h
          · rw [h]; exact hlt
          · exact Nat.lt_trans hlt ((ih (progressPct u.1 total_bytes)).2 e h)

/-- Emitted percentages of a run form a strictly increasing sequence. -/
theorem runProgress_strict_mono (total_bytes : Nat) :
    ∀ (us : List (Nat × String)) (l : Nat),
      ((runProgress total_bytes l us).2.map (fun e => e.percentage)).Pairwise (· < ·) := by
  intro us
  induction us with
  | nil => intro l; simp [runProgress]
  | cons u us ih =>
    intro l
    by_cases h0 : total_bytes = 0
    · have hr : report_progress l u.1 total_bytes u.2 = (l, none) := by
        simp [report_progress, h0]
      simpa [runProgress, hr] using ih l
    · by_cases hle : progressPct u.1 total_bytes ≤ l
      · have hr : report_progress l u.1 total_bytes u.2 = (l, none) := by
          simp [report_progress, h0, hle]
        simpa [runProgress, hr] using ih l
      · have hlt : l < progressPct u.1 total_bytes := Nat.lt_of_not_le hle
        have hr : report_progress l u.1 total_bytes u.2
            = (progressPct u.1 total_bytes,
               some { percentage := progressPct u.1 total_bytes, current_file := u.2 }) := by
          simp [report_progress, h0, Nat.not_le.mpr hlt]
        simp only [runProgress, hr, Option.toList_some, List.cons_append, List.nil_append,
          List.map_cons, List.pairwise_cons]
        refine ⟨?_, ih (progressPct u.1 total_bytes)⟩
        intro q hq
        rcases List.mem_map.mp hq with ⟨e, he, rfl⟩
        exact (runProgress_lb total_bytes us (progressPct u.1 total_bytes)).2 e he

/-- Claim C4: during one extraction the emitted progress percentages are
strictly increasing (hence never repeat a value), and a call of
report_progress emits an event only when the integer percentage of bytes
written over total bytes exceeds the previously recorded percentage by at
least one whole point (the event then carries exactly that percentage). -/
theorem extraction_progress_strictly_increasing (total_bytes : Nat)
    (us : List (Nat × String)) :
    ((runProgress total_bytes 0 us).2.map (fun e => e.percentage)).Pairwise (· < ·) ∧
    ((runProgress total_bytes 0 us).2.map (fun e => e.percentage)).Nodup ∧
    (∀ (l b : Nat) (f : String) (e : ProgressPayload),
      (report_progress l b total_bytes f).2 = some e →
        l + 1 ≤ e.percentage ∧ e.percentage = progressPct b total_bytes) := by
  refine ⟨runProgress_strict_mono total_bytes us 0, ?_, ?_⟩
  · exact (runProgress_strict_mono total_bytes us 0).imp Nat.ne_of_lt
  · intro l b f e he
    by_cases h0 : total_bytes = 0
    · simp [report_progress, h0] at he
    · by_cases hle : progressPct b total_bytes ≤ l
      · simp [report_progress, h0, hle] at he
      · have hlt : l < progressPct b total_bytes := Nat.lt_of_not_le hle
        have hr : (report_progress l b total_bytes f).2
            = some { percentage := progressPct b total_bytes, current_file := f } := by
          simp [report_progress, h0, Nat.not_le.mpr hlt]
        rw [hr] at he
        cases he
        exact ⟨hlt, rfl⟩

/-- Witness for C4 at a concrete run: two updates at 50 and 60 of 100 bytes
emit strictly increasing percentages. -/
theorem extraction_progress_strictly_increasing_witness :
    ((runProgress 100 0 [(50, "a"), (60, "b")]).2.map
      (fun e => e.percentage)).Pairwise (· < ·) :=
  (extraction_progress_strictly_increasing 100 [(50, "a"), (60, "b")]).1

/-! ## Decimal rendering lemmas -/

/-- Character codes of bounded code points round-trip through Char.ofNat. -/
theorem toNat_ofNat_bdd (n : Nat) (h : n < 55296) : (Char.ofNat n).toNat = n := by
  have hv : n.isValidChar := Or.inl h
  simp [Char.ofNat, hv, Char.ofNatAux, Char.toNat, UInt32.toNat]

/-- Digit characters decode to their digit. -/
theorem digitVal_digitChar (d : Nat) (h : d < 10) : digitVal (digitChar d) = d := by
  have := toNat_ofNat_bdd (48 + d) (by omega)
  simp [digitVal, digitChar, this]

/-- Parsing after appending one character. -/
theorem parseDigits_append (l : List Char) (c : Char) :
    parseDigits (l ++ [c]) = parseDigits l * 10 + digitVal c := by
  simp [parseDigits, List.foldl_append]

/-- Decimal rendering round-trips through parsing, given enough fuel. -/
theorem parseDigits_natDigitsAux :
    ∀ fuel n, n < fuel → parseDigits (natDigitsAux fuel n) = n := by
  intro fuel
  induction fuel with
  | zero => intro n hn; omega
  | succ f ih =>
    intro n hn
    by_cases h : n < 10
    · simp [natDigitsAux, h, parseDigits, digitVal_digitChar n h]
    · have hd : n / 10 < f := by
        have h1 : n / 10 < n := Nat.div_lt_self (by omega) (by omega)
        omega
      simp only [natDigitsAux, h, if_false, parseDigits_append, ih (n / 10) hd,
        digitVal_digitChar (n % 10) (Nat.mod_lt n (by omega))]
      omega

/-- Decimal rendering round-trips through parsing. -/
theorem parseDigits_natDigits (n : Nat) : parseDigits (natDigits n) = n :=
  parseDigits_natDigitsAux (n + 1) n (Nat.lt_succ_self n)

/-- Decimal rendering is injective. -/
theorem natDigits_inj (m n : Nat) (h : natDigits m = natDigits n) : m = n := by
  have := congrArg parseDigits h
  simpa [parseDigits_natDigits] using this

/-- Injectivity of any candidate scheme that embeds the counter in decimal
between a fixed front and a fixed back part. -/
theorem natDigits_affine_inj (front back : List Char) (k1 k2 : Nat)
    (h : front ++ natDigits k1 ++ back = front ++ natDigits k2 ++ back) : k1 = k2 := by
  rw [List.append_assoc, List.append_assoc] at h
  have h1 : natDigits k1 ++ back = natDigits k2 ++ back := List.append_cancel_left h
  exact natDigits_inj k1 k2 (List.append_cancel_right h1)

/-! ## Search loop lemmas -/

/-- A successful search returns a free path that is the first free candidate
at or after the start index, within the fuel window. -/
theorem searchFrom_some (occupied : List (List Char)) (f : Nat → List Char) :
    ∀ fuel k c, searchFrom occupied f fuel k = some c →
      c ∉ occupied ∧
      ∃ j, k ≤ j ∧ j < k + fuel ∧ c = f j ∧
        ∀ i, k ≤ i → i < j → f i ∈ occupied := by
  intro fuel
  induction fuel with
  | zero => intro k c h; simp [searchFrom] at h
  | succ fl ih =>
    intro k c h
    simp only [searchFrom] at h
    by_cases hm : f k ∈ occupied
    · rw [if_pos hm] at h
      obtain ⟨hfree, j, hkj, hjf, hcj, hfirst⟩ := ih (k + 1) c h
      refine ⟨hfree, j, by omega, by omega, hcj, ?_⟩
      intro i hki hij
      by_cases hik : i = k
      · rw [hik]; exact hm
      · exact hfirst i (by omega) hij
    · rw [if_neg hm] at h
      cases h
      exact ⟨hm, k, Nat.le_refl k, by omega, rfl, fun i h1 h2 => by omega⟩

/-- A failed search means every candidate in the fuel window is occupied. -/
theorem searchFrom_none (occupied : List (List Char)) (f : Nat → List Char) :
    ∀ fuel k, searchFrom occupied f fuel k = none →
      ∀ j, k ≤ j → j < k + fuel → f j ∈ occupied := by
  intro fuel
  induction fuel with
  | zero => intro k _ j h1 h2; omega
  | succ fl ih =>
    intro k h j h1 h2
    simp only [searchFrom] at h
    by_cases hm : f k ∈ occupied
    · rw [if_pos hm] at h
      by_cases hjk : j = k
      · rw [hjk]; exact hm
      · exact ih (k + 1) h j (by omega) (by omega)
    · rw [if_neg hm] at h
      cases h

/-- With injective candidates and fuel exceeding the number of occupied
paths, the search always succeeds (pigeonhole: the window holds more
distinct candidates than there are occupied paths). -/
theorem searchFrom_succeeds (occupied : List (List Char)) (f : Nat → List Char)
    (hinj : ∀ i j, f i = f j → i = j) (fuel k : Nat)
    (hfuel : occupied.length < fuel) :
    ∃ c, searchFrom occupied f fuel k = some c := by
  cases hs : searchFrom occupied f fuel k with
  | some c => exact ⟨c, rfl⟩
  | none =>
    exfalso
    have hall := searchFrom_none occupied f fuel k hs
    have hsub : ((List.range fuel).map (fun i => f (k + i))) ⊆ occupied := by
      intro x hx
      obtain ⟨i, hi, rfl⟩ := List.mem_map.mp hx
      exact hall (k + i) (by omega) (by have := List.mem_range.mp hi; omega)
    have hnd : ((List.range fuel).map (fun i => f (k + i))).Nodup := by
      refine List.Nodup.map ?_ (List.nodup_range fuel)
      intro a b hab
      have := hinj (k + a) (k + b) hab
      omega
    have := (hnd.subperm hsub).length_le
    simp at this
    omega

/-- Joining with the same parent is injective in the joined name. -/
theorem joinPath_inj_right (p : List Char) {a b : List Char}
    (h : joinPath p a = joinPath p b) : a = b := by
  simp only [joinPath] at h
  have h1 := List.append_cancel_left h
  simpa using h1

/-- Candidate names of get_unique_dir are injective in the counter. -/
theorem uniqueCand_inj (parent name : List Char) (i j : Nat)
    (h : uniqueCand parent name i = uniqueCand parent name j) : i = j := by
  simp only [uniqueCand] at h
  have h2 := joinPath_inj_right parent h
  simp only [List.append_assoc] at h2
  have h3 := List.append_cancel_left h2
  have h4 := List.append_cancel_left h3
  exact natDigits_inj i j (List.append_cancel_right h4)

/-- A base path never equals a counter candidate built from the same name. -/
theorem joinPath_ne_uniqueCand (parent name : List Char) (k : Nat) :
    joinPath parent name ≠ uniqueCand parent name k := by
  intro h
  simp only [uniqueCand] at h
  have h2 := joinPath_inj_right parent h
  have hlen := congrArg List.length h2
  simp only [List.length_append, List.length_cons, List.length_nil] at hlen
  omega

/-- Claim C7: get_unique_dir returns the base name when free; it never
returns an occupied path (so no existing directory is overwritten); on a
collision it returns the candidate with the smallest counter k that is at
least 2 and free; and for two consecutive extractions of the same archive,
where the second run sees the first output as occupied and the counter-2
name still free, the second output is exactly the name suffixed with the
counter 2 and differs from the first output. -/
theorem get_unique_dir_spec (occupied : List (List Char)) (parent name : List Char) :
    (joinPath parent name ∉ occupied →
      get_unique_dir occupied parent name = joinPath parent name) ∧
    get_unique_dir occupied parent name ∉ occupied ∧
    (joinPath parent name ∈ occupied →
      ∃ k, 2 ≤ k ∧ get_unique_dir occupied parent name = uniqueCand parent name k ∧
        ∀ j, 2 ≤ j → j < k → uniqueCand parent name j ∈ occupied) ∧
    (joinPath parent name ∉ occupied →
      ∀ occupied2 : List (List Char), joinPath parent name ∈ occupied2 →
        uniqueCand parent name 2 ∉ occupied2 →
        get_unique_dir occupied2 parent name = uniqueCand parent name 2 ∧
        get_unique_dir occupied parent name ≠ get_unique_dir occupied2 parent name) := by
  have hsearch : joinPath parent name ∈ occupied →
      ∃ c, searchFrom occupied (uniqueCand parent name) (occupied.length + 1) 2 = some c := by
    intro _
    exact searchFrom_succeeds occupied (uniqueCand parent name)
      (uniqueCand_inj parent name) (occupied.length + 1) 2 (Nat.lt_succ_self _)
  refine ⟨?_, ?_, ?_, ?_⟩
  · intro h
    simp [get_unique_dir, h]
  · by_cases h : joinPath parent name ∈ occupied
    · obtain ⟨c, hc⟩ := hsearch h
      have := (searchFrom_some occupied (uniqueCand parent name) _ _ _ hc).1
      simpa [get_unique_dir, h, hc] using this
    · simpa [get_unique_dir, h] using h
  · intro h
    obtain ⟨c, hc⟩ := hsearch h
    obtain ⟨hfree, j, h2j, _, hcj, hfirst⟩ :=
      searchFrom_some occupied (uniqueCand parent name) _ _ _ hc
    refine ⟨j, h2j, ?_, ?_⟩
    · simp [get_unique_dir, h, hc, hcj]
    · intro i h2i hij
      exact hfirst i h2i hij
  · intro h occupied2 h2 hfree2
    have hres2 : get_unique_dir occupied2 parent name = uniqueCand parent name 2 := by
      simp [get_unique_dir, h2, searchFrom, hfree2]
    refine ⟨hres2, ?_⟩
    rw [hres2]
    simp only [get_unique_dir, h, if_neg h]
    exact joinPath_ne_uniqueCand parent name 2

/-- Witness for C7 at a concrete state: with only T\a occupied, the chosen
output directory for stem a is not an occupied path. -/
theorem get_unique_dir_spec_witness :
    get_unique_dir [joinPath "T".data "a".data] "T".data "a".data
      ∉ [joinPath "T".data "a".data] :=
  (get_unique_dir_spec [joinPath "T".data "a".data] "T".data "a".data).2.1

/-- Copy-candidate names are injective in the counter. -/
theorem copiaCand_inj (target_dir stem ext : List Char) (i j : Nat)
    (h : copiaCand target_dir stem ext i = copiaCand target_dir stem ext j) : i = j := by
  simp only [copiaCand] at h
  have h2 := joinPath_inj_right target_dir h
  simp only [List.append_assoc] at h2
  have h3 := List.append_cancel_left h2
  have h4 := List.append_cancel_left h3
  have h5 := List.append_cancel_left h4
  exact natDigits_inj i j (List.append_cancel_right h5)

/-- Claim C8: get_next_available_path returns target\name when free; when
that exists it returns the stem suffixed with " - Copia" before the
extension; when that also exists it returns the free "stem - Copia (k).ext"
with the smallest k at least 2; and on the photo.jpg example from the spec it
produces photo - Copia.jpg and then photo - Copia (2).jpg. -/
theorem get_next_available_path_spec (occupied : List (List Char))
    (target_dir name : List Char) :
    (joinPath target_dir name ∉ occupied →
      get_next_available_path occupied target_dir name = joinPath target_dir name) ∧
    (joinPath target_dir name ∈ occupied →
      joinPath target_dir ((splitStemExt name).1 ++ copiaTag ++ (splitStemExt name).2)
          ∉ occupied →
      get_next_available_path occupied target_dir name
        = joinPath target_dir
            ((splitStemExt name).1 ++ copiaTag ++ (splitStemExt name).2)) ∧
    (joinPath target_dir name ∈ occupied →
      joinPath target_dir ((splitStemExt name).1 ++ copiaTag ++ (splitStemExt name).2)
          ∈ occupied →
      ∃ k, 2 ≤ k ∧
        get_next_available_path occupied target_dir name
          = copiaCand target_dir (splitStemExt name).1 (splitStemExt name).2 k ∧
        ∀ j, 2 ≤ j → j < k →
          copiaCand target_dir (splitStemExt name).1 (splitStemExt name).2 j ∈ occupied) ∧
    get_next_available_path occupied target_dir name ∉ occupied ∧
    get_next_available_path [joinPath "C:\\dest".data "photo.jpg".data]
        "C:\\dest".data "photo.jpg".data
      = joinPath "C:\\dest".data "photo - Copia.jpg".data ∧
    get_next_available_path
        [joinPath "C:\\dest".data "photo.jpg".data,
         joinPath "C:\\dest".data "photo - Copia.jpg".data]
        "C:\\dest".data "photo.jpg".data
      = joinPath "C:\\dest".data "photo - Copia (2).jpg".data := by
  have hsearch : joinPath target_dir name ∈ occupied →
      ∃ c, searchFrom occupied
        (copiaCand target_dir (splitStemExt name).1 (splitStemExt name).2)
        (occupied.length + 1) 2 = some c := by
    intro _
    exact searchFrom_succeeds occupied _
      (copiaCand_inj target_dir (splitStemExt name).1 (splitStemExt name).2)
      (occupied.length + 1) 2 (Nat.lt_succ_self _)
  refine ⟨?_, ?_, ?_, ?_, by decide, by decide⟩
  · intro h
    simp [get_next_available_path, h]
  · intro h hcopy
    simp only [List.append_assoc] at hcopy ⊢
    simp [get_next_available_path, h, hcopy, List.append_assoc]
  · intro h hcopy
    simp only [List.append_assoc] at hcopy
    obtain ⟨c, hc⟩ := hsearch h
    obtain ⟨hfree, j, h2j, _, hcj, hfirst⟩ := searchFrom_some occupied _ _ _ _ hc
    refine ⟨j, h2j, ?_, ?_⟩
    · simp [get_next_available_path, h, hcopy, hc, hcj, List.append_assoc]
    · intro i h2i hij
      exact hfirst i h2i hij
  · by_cases h : joinPath target_dir name ∈ occupied
    · by_cases hcopy : joinPath target_dir
          ((splitStemExt name).1 ++ (copiaTag ++ (splitStemExt name).2)) ∈ occupied
      · obtain ⟨c, hc⟩ := hsearch h
        have := (searchFrom_some occupied _ _ _ _ hc).1
        simpa [get_next_available_path, h, hcopy, hc, List.append_assoc] using this
      · simpa [get_next_available_path, h, hcopy, List.append_assoc] using hcopy
    · simpa [get_next_available_path, h] using h

/-- Witness for C8 at the concrete state of the spec example: with photo.jpg
occupied the returned path is photo - Copia.jpg. -/
theorem get_next_available_path_spec_witness :
    get_next_available_path [joinPath "C:\\dest".data "photo.jpg".data]
        "C:\\dest".data "photo.jpg".data
      = joinPath "C:\\dest".data "photo - Copia.jpg".data :=
  (get_next_available_path_spec [] [] []).2.2.2.2.1

/-- A computed root component is a leading part of its entry name. -/
theorem rootOf_append (n r : List Char) (h : rootOf n = some r) :
    ∃ t, n = r ++ t := by
  induction n generalizing r with
  | nil => simp [rootOf] at h
  | cons c cs ih =>
    by_cases hc : c = '/'
    · simp only [rootOf, hc, if_pos rfl] at h
      cases h
      exact ⟨cs, by simp [hc]⟩
    · simp only [rootOf, hc, if_false] at h
      rcases Option.map_eq_some'.mp h with ⟨r0, hr0, rfl⟩
      obtain ⟨t, ht⟩ := ih r0 hr0
      exact ⟨t, by simp [ht]⟩

/-- Stripping a leading part that is literally present succeeds. -/
theorem stripLeading_append (r t : List Char) : stripLeading r (r ++ t) = some t := by
  induction r with
  | nil => simp [stripLeading]
  | cons c cs ih => simp [stripLeading, ih]

/-- The accumulator only grows along collectRoots. -/
theorem collectRoots_acc_sub :
    ∀ (ns acc out : List (List Char)), collectRoots ns acc = some out → acc ⊆ out := by
  intro ns
  induction ns with
  | nil =>
    intro acc out h
    simp only [collectRoots] at h
    cases h
    exact fun x hx => hx
  | cons n ns ih =>
    intro acc out h
    simp only [collectRoots] at h
    rcases hr : rootOf n with _ | r
    · rw [hr] at h; cases h
    · rw [hr] at h
      intro x hx
      refine ih _ out h ?_
      by_cases hm : r ∈ acc
      · simpa [hm] using hx
      · simp only [hm, if_false]
        exact List.mem_cons_of_mem r hx

/-- Every entry examined by a successful collectRoots run has a root that
lands in the final accumulator. -/
theorem collectRoots_sound :
    ∀ (ns acc out : List (List Char)), collectRoots ns acc = some out →
      ∀ n ∈ ns, ∃ rn, rootOf n = some rn ∧ rn ∈ out := by
  intro ns
  induction ns with
  | nil => intro acc out _ n hn; simp at hn
  | cons m ns ih =>
    intro acc out h n hn
    simp only [collectRoots] at h
    rcases hr : rootOf m with _ | r
    · rw [hr] at h; cases h
    · rw [hr] at h
      rcases List.mem_cons.mp hn with rfl | hn2
      · refine ⟨r, hr, ?_⟩
        refine collectRoots_acc_sub _ _ _ h ?_
        by_cases hm : r ∈ acc
        · simpa [hm] using hm
        · simp [hm]
      · exact ih _ out h n hn2

/-- An entry without a slash makes collectRoots fail. -/
theorem collectRoots_none_of_rootless :
    ∀ (ns acc : List (List Char)), (∃ n ∈ ns, rootOf n = none) →
      collectRoots ns acc = none := by
  intro ns
  induction ns with
  | nil => intro acc h; simp at h
  | cons m ns ih =>
    intro acc h
    simp only [collectRoots]
    rcases hr : rootOf m with _ | r
    · rfl
    · obtain ⟨n, hn, hnone⟩ := h
      rcases List.mem_cons.mp hn with rfl | hn2
      · rw [hr] at hnone; cases hnone
      · exact ih _ ⟨n, hn2, hnone⟩

/-- Inversion of a successful single-root detection. -/
theorem get_zip_single_root_some (names : List (List Char)) (r : List Char)
    (h : get_zip_single_root names = some r) : collectRoots names [] = some [r] := by
  by_cases he : names.isEmpty
  · simp [get_zip_single_root, he] at h
  · simp only [get_zip_single_root, he, Bool.false_eq_true, if_false] at h
    rcases hc : collectRoots names [] with _ | out
    · rw [hc] at h; cases h
    · rw [hc] at h
      match out, h with
      | [r0], h => cases h; rfl

/-- Claim C5: when the entries of a ZIP share exactly one top-level folder,
that folder is a literal leading part of every entry name and the per-entry
output path strips it; when some entry has no top-level folder, or two
entries have distinct top-level folders, no single root is detected and
entry names are used unstripped; concretely, the spec round-trip example
root/(a.txt, sub/b.txt) extracts to output\a.txt and output\sub\b.txt with
no root component in any written path. -/
theorem zip_single_root_stripping (names : List (List Char)) (r : List Char) :
    (get_zip_single_root names = some r →
      ∀ n ∈ names, ∃ t, n = r ++ t ∧ zipEntryRel (some r) n = t) ∧
    ((∃ n ∈ names, rootOf n = none) → get_zip_single_root names = none) ∧
    (∀ n1 ∈ names, ∀ n2 ∈ names, ∀ r1 r2, rootOf n1 = some r1 → rootOf n2 = some r2 →
      r1 ≠ r2 → get_zip_single_root names = none) ∧
    (∀ n, zipEntryRel none n = n) ∧
    (extract_zip allOkZip
        ["root/".data, "root/a.txt".data, "root/sub/".data, "root/sub/b.txt".data]
        "T".data "root".data).2
      = Except.ok (joinPath "T".data "root".data) ∧
    (extract_zip allOkZip
        ["root/".data, "root/a.txt".data, "root/sub/".data, "root/sub/b.txt".data]
        "T".data "root".data).1
      = [FsEffect.mkdirAll (joinPath "T".data "root".data),
         FsEffect.mkdirParentOf (joinPath (joinPath "T".data "root".data) "a.txt".data),
         FsEffect.createFile (joinPath (joinPath "T".data "root".data) "a.txt".data),
         FsEffect.mkdirAll (joinPath (joinPath "T".data "root".data) "sub/".data),
         FsEffect.mkdirParentOf (joinPath (joinPath "T".data "root".data) "sub/b.txt".data),
         FsEffect.createFile (joinPath (joinPath "T".data "root".data) "sub/b.txt".data)] := by
  refine ⟨?_, ?_, ?_, fun n => rfl, rfl, rfl⟩
  · intro h n hn
    have hc := get_zip_single_root_some names r h
    obtain ⟨rn, hrn, hmem⟩ := collectRoots_sound names [] [r] hc n hn
    have hrr : rn = r := by simpa using hmem
    subst hrr
    obtain ⟨t, ht⟩ := rootOf_append n rn hrn
    exact ⟨t, ht, by simp [zipEntryRel, ht, stripLeading_append]⟩
  · intro h
    by_cases he : names.isEmpty
    · simp [get_zip_single_root, he]
    · simp [get_zip_single_root, he, collectRoots_none_of_rootless names [] h]
  · intro n1 h1 n2 h2 r1 r2 hr1 hr2 hne
    cases hres : get_zip_single_root names with
    | none => rfl
    | some r0 =>
      exfalso
      have hc := get_zip_single_root_some names r0 hres
      obtain ⟨ra, hra, hmema⟩ := collectRoots_sound names [] [r0] hc n1 h1
      obtain ⟨rb, hrb, hmemb⟩ := collectRoots_sound names [] [r0] hc n2 h2
      rw [hra] at hr1
      rw [hrb] at hr2
      cases hr1; cases hr2
      have ha : r1 = r0 := by simpa using hmema
      have hb : r2 = r0 := by simpa using hmemb
      exact hne (ha.trans hb.symm)

/-- Witness for C5: the spec round-trip example succeeds and returns the
unsuffixed output directory. -/
theorem zip_single_root_stripping_witness :
    (extract_zip allOkZip
        ["root/".data, "root/a.txt".data, "root/sub/".data, "root/sub/b.txt".data]
        "T".data "root".data).2
      = Except.ok (joinPath "T".data "root".data) :=
  (zip_single_root_stripping [] []).2.2.2.2.1

/-- Claim C6: extracting a ZIP archive with zero entries fails with the
descriptive "Archive is empty" error, and the effect trace is empty: in
particular no destination directory is created, because the emptiness check
runs before the output directory is chosen and created. -/
theorem extract_zip_empty_archive (env : ZipEnv) (target_dir stem : List Char)
    (ho : env.openOk = true) (hr : env.readOk = true) :
    extract_zip env [] target_dir stem = ([], Except.error "Archive is empty") := by
  simp [extract_zip, ho, hr]

/-- Witness for C6 in the all-success environment. -/
theorem extract_zip_empty_archive_witness :
    extract_zip allOkZip [] "T".data "root".data
      = ([], Except.error "Archive is empty") :=
  extract_zip_empty_archive allOkZip "T".data "root".data rfl rfl

/-- Claim C9: the overlay reaches Armed only through an explicit show call
(any event that moves the state from Hidden to Armed is showCall); once
Armed, a single timer tick on which the tracked mouse button is released
while the cursor is outside the owner region, or on which Escape is down,
moves it to Hidden within that one tick, so dismissal happens within one
timer period of 50 ms, which is at most the 100 ms bound of the claim. -/
theorem overlay_armed_only_by_show (s : OverlayState) (e : OverlayEvent) (env : TickEnv)
    (hcur : env.cursorPosOk = true) :
    (s = OverlayState.hidden → overlayStep s e = OverlayState.armed →
      e = OverlayEvent.showCall) ∧
    (env.lButtonDown = false → env.insideApp = false →
      overlayStep OverlayState.armed (OverlayEvent.timerTick env) = OverlayState.hidden) ∧
    (env.escDown = true →
      overlayStep OverlayState.armed (OverlayEvent.timerTick env) = OverlayState.hidden) ∧
    overlayTimerPeriodMillis = 50 ∧ overlayTimerPeriodMillis ≤ 100 := by
  refine ⟨?_, ?_, ?_, rfl, by decide⟩
  · intro hs harm
    cases e with
    | showCall => rfl
    | timerTick env2 =>
      exfalso
      rw [hs] at harm
      simp only [overlayStep] at harm
      by_cases hd : tickDismisses env2
      · rw [if_pos hd] at harm; cases harm
      · rw [if_neg hd] at harm; cases harm
    | lButtonDownMsg => cases harm
    | dropFiles _ => cases harm
    | hideCall => cases harm
  · intro hl hin
    have hd : tickDismisses env = true := by
      simp [tickDismisses, hcur, hl, hin]
    simp [overlayStep, hd]
  · intro hesc
    have hd : tickDismisses env = true := by
      simp [tickDismisses, hcur, hesc]
    simp [overlayStep, hd]

/-- Witness for C9 at a concrete tick environment: Escape pressed with the
cursor readable dismisses the armed overlay in one tick. -/
theorem overlay_armed_only_by_show_witness :
    overlayStep OverlayState.armed
      (OverlayEvent.timerTick
        { cursorPosOk := true, insideApp := true, lButtonDown := true,
          rButtonDown := false, escDown := true })
      = OverlayState.hidden :=
  (overlay_armed_only_by_show OverlayState.armed OverlayEvent.showCall
    { cursorPosOk := true, insideApp := true, lButtonDown := true,
      rButtonDown := false, escDown := true } rfl).2.2.1 rfl

/-- Two tame code points with equal foldings have equal UTF-8 sizes. -/
theorem cpBytes_fold_eq (fold : Nat → Nat) (m n : Nat)
    (hm : cpBytes (fold m) = cpBytes m) (hn : cpBytes (fold n) = cpBytes n)
    (h : fold m = fold n) : cpBytes m = cpBytes n := by
  rw [← hm, h, hn]

/-- Every code point needs at least one byte. -/
theorem cpBytes_pos (n : Nat) : 1 ≤ cpBytes n := by
  simp only [cpBytes]
  split_ifs <;> omega

/-- Lexicographic comparison returns eq exactly on equal lists. -/
theorem lexCmp_eq_iff : ∀ u v : List Nat, lexCmp u v = .eq ↔ u = v := by
  intro u
  induction u with
  | nil => intro v; cases v <;> simp [lexCmp]
  | cons a as ih =>
    intro v
    cases v with
    | nil => simp [lexCmp]
    | cons b bs =>
      by_cases hab : a = b
      · simp [lexCmp, hab, ih bs]
      · simp only [lexCmp, if_neg hab]
        constructor
        · intro h
          exact absurd (Nat.compare_eq_eq.mp h) hab
        · intro h
          cases h
          exact absurd rfl hab

/-- Lexicographic comparison is antisymmetric between lt and gt. -/
theorem lexCmp_lt_iff_gt : ∀ u v : List Nat, lexCmp u v = .lt ↔ lexCmp v u = .gt := by
  intro u
  induction u with
  | nil => intro v; cases v <;> simp [lexCmp]
  | cons a as ih =>
    intro v
    cases v with
    | nil => simp [lexCmp]
    | cons b bs =>
      by_cases hab : a = b
      · simp [lexCmp, hab, ih bs]
      · have hba : b ≠ a := fun h => hab h.symm
        simp only [lexCmp, if_neg hab, if_neg hba]
        constructor
        · intro h
          exact Nat.compare_eq_gt.mpr (Nat.compare_eq_lt.mp h)
        · intro h
          exact Nat.compare_eq_lt.mpr (Nat.compare_eq_gt.mp h)

/-- Lexicographic strict order is transitive. -/
theorem lexCmp_lt_trans : ∀ u v w : List Nat,
    lexCmp u v = .lt → lexCmp v w = .lt → lexCmp u w = .lt := by
  intro u
  induction u with
  | nil =>
    intro v w h1 h2
    cases v with
    | nil => simp [lexCmp] at h1
    | cons b bs =>
      cases w with
      | nil => simp [lexCmp] at h2
      | cons c cs => simp [lexCmp]
  | cons a as ih =>
    intro v w h1 h2
    cases v with
    | nil => simp [lexCmp] at h1
    | cons b bs =>
      cases w with
      | nil => simp [lexCmp] at h2
      | cons c cs =>
        by_cases hab : a = b <;> by_cases hbc : b = c
        · subst hab; subst hbc
          simp only [lexCmp, if_pos rfl] at h1 h2 ⊢
          exact ih bs cs h1 h2
        · subst hab
          simp only [lexCmp, if_pos rfl, if_neg hbc] at h1 h2 ⊢
          exact h2
        · subst hbc
          simp only [lexCmp, if_neg hab] at h1 ⊢
          exact h1
        · simp only [lexCmp, if_neg hab, if_neg hbc] at h1 h2
          have hac : a < c := Nat.lt_trans (Nat.compare_eq_lt.mp h1) (Nat.compare_eq_lt.mp h2)
          simp only [lexCmp, if_neg (Nat.ne_of_lt hac)]
          exact Nat.compare_eq_lt.mpr hac

/-- On names whose characters all keep their byte size under the folding,
the character loop of the comparator agrees with the pure lexicographic
order on folded keys followed by the byte-length tiebreak, as long as the
byte budgets differ by the byte lengths of the two names. -/
theorem cmpNameGo_lex (fold : Nat → Nat) : ∀ (x y : List Char) (la lb : Nat),
    (∀ c ∈ x, cpBytes (fold c.toNat) = cpBytes c.toNat) →
    (∀ c ∈ y, cpBytes (fold c.toNat) = cpBytes c.toNat) →
    la + byteLen y = lb + byteLen x →
    cmpNameGo fold x y la lb
      = (lexCmp (lowerKey fold x) (lowerKey fold y)).then (compare la lb) := by
  intro x
  induction x with
  | nil =>
    intro y la lb _ _ hinv
    cases y with
    | nil =>
      simp only [cmpNameGo, lowerKey, List.map_nil, lexCmp]
      cases h : compare la lb <;> rfl
    | cons c cs =>
      have hlt : la < lb := by
        have h1 := cpBytes_pos c.toNat
        simp only [byteLen, List.map_nil, List.sum_nil, List.map_cons, List.sum_cons] at hinv
        omega
      simp only [cmpNameGo, lowerKey, List.map_nil, List.map_cons, lexCmp]
      rw [Nat.compare_eq_lt.mpr hlt]
      rfl
  | cons a as ih =>
    intro y la lb hx hy hinv
    cases y with
    | nil =>
      have hlt : lb < la := by
        have h1 := cpBytes_pos a.toNat
        simp only [byteLen, List.map_nil, List.sum_nil, List.map_cons, List.sum_cons] at hinv
        omega
      simp only [cmpNameGo, lowerKey, List.map_nil, List.map_cons, lexCmp]
      rw [Nat.compare_eq_gt.mpr hlt]
      rfl
    | cons b bs =>
      by_cases hab : fold a.toNat = fold b.toNat
      · have hsz : cpBytes a.toNat = cpBytes b.toNat :=
          cpBytes_fold_eq fold a.toNat b.toNat
            (hx a (List.mem_cons_self a as)) (hy b (List.mem_cons_self b bs)) hab
        have hinv2 : la + byteLen bs = lb + byteLen as := by
          simp only [byteLen, List.map_cons, List.sum_cons] at hinv ⊢
          omega
        simp only [cmpNameGo, if_pos hab, lowerKey, List.map_cons, lexCmp, hab, if_pos rfl]
        exact ih bs la lb (fun c hc => hx c (List.mem_cons_of_mem a hc))
          (fun c hc => hy c (List.mem_cons_of_mem b hc)) hinv2
      · simp only [cmpNameGo, if_neg hab, lowerKey, List.map_cons, lexCmp, if_neg hab]
        cases h : compare (fold a.toNat) (fold b.toNat) with
        | eq => exact absurd (Nat.compare_eq_eq.mp h) hab
        | lt => rfl
        | gt => rfl

/-- On tame names the full comparator is the lexicographic composition of
group rank, folded-key order and byte length. -/
theorem cmpFileEntry_keys (fold : Nat → Nat) (a b : FileEntry)
    (ha : tameName fold a) (hb : tameName fold b) :
    cmpFileEntry fold a b
      = (compare (entryRank a) (entryRank b)).then
          ((lexCmp (lowerKey fold a.name.data) (lowerKey fold b.name.data)).then
            (compare (byteLen a.name.data) (byteLen b.name.data))) := by
  have hname := cmpNameGo_lex fold a.name.data b.name.data
    (byteLen a.name.data) (byteLen b.name.data) ha hb (Nat.add_comm _ _)
  have hq1 : compare (1 : Nat) 1 = Ordering.eq := by decide
  have hq2 : compare (1 : Nat) 0 = Ordering.gt := by decide
  have hq3 : compare (0 : Nat) 1 = Ordering.lt := by decide
  have hq4 : compare (0 : Nat) 0 = Ordering.eq := by decide
  have het : ∀ o : Ordering, Ordering.eq.then o = o := fun o => rfl
  have hlt : ∀ o : Ordering, Ordering.lt.then o = Ordering.lt := fun o => rfl
  have hgt : ∀ o : Ordering, Ordering.gt.then o = Ordering.gt := fun o => rfl
  cases hda : a.is_dir <;> cases hdb : b.is_dir
  · simp [cmpFileEntry, hda, hdb, entryRank, hq1, het, hname]
  · simp [cmpFileEntry, hda, hdb, entryRank, hq2, hgt]
  · simp [cmpFileEntry, hda, hdb, entryRank, hq3, hlt]
  · simp [cmpFileEntry, hda, hdb, entryRank, hq4, het, hname]

/-- Case analysis for a three-stage lexicographic composition not being gt. -/
theorem then3_ne_gt (o1 o2 o3 : Ordering) :
    (o1.then (o2.then o3)) ≠ .gt ↔
      (o1 = .lt ∨ (o1 = .eq ∧ (o2 = .lt ∨ (o2 = .eq ∧ o3 ≠ .gt)))) := by
  cases o1 <;> cases o2 <;> cases o3 <;> decide

/-- Characterization of the comparator-induced order through the keys, on
tame names. -/
theorem entryLe_iff (fold : Nat → Nat) (a b : FileEntry)
    (ha : tameName fold a) (hb : tameName fold b) :
    entryLe fold a b = true ↔
      (entryRank a < entryRank b ∨
        (entryRank a = entryRank b ∧
          (lexCmp (lowerKey fold a.name.data) (lowerKey fold b.name.data) = .lt ∨
            (lowerKey fold a.name.data = lowerKey fold b.name.data ∧
              byteLen a.name.data ≤ byteLen b.name.data)))) := by
  have h1 : entryLe fold a b = true ↔ cmpFileEntry fold a b ≠ .gt := by
    unfold entryLe
    cases hc : cmpFileEntry fold a b <;> decide
  rw [h1, cmpFileEntry_keys fold a b ha hb, then3_ne_gt, Nat.compare_eq_lt,
    Nat.compare_eq_eq, lexCmp_eq_iff, Nat.compare_ne_gt]

/-- On tame names the comparator-induced order is transitive. -/
theorem entryLe_trans (fold : Nat → Nat) (a b c : FileEntry)
    (ha : tameName fold a) (hb : tameName fold b) (hc : tameName fold c)
    (h1 : entryLe fold a b = true) (h2 : entryLe fold b c = true) :
    entryLe fold a c = true := by
  rw [entryLe_iff fold a b ha hb] at h1
  rw [entryLe_iff fold b c hb hc] at h2
  rw [entryLe_iff fold a c ha hc]
  rcases h1 with hr1 | ⟨hre1, hm1⟩
  · rcases h2 with hr2 | ⟨hre2, _⟩
    · exact Or.inl (Nat.lt_trans hr1 hr2)
    · exact Or.inl (hre2 ▸ hr1)
  · rcases h2 with hr2 | ⟨hre2, hm2⟩
    · exact Or.inl (hre1 ▸ hr2)
    · refine Or.inr ⟨hre1.trans hre2, ?_⟩
      rcases hm1 with hl1 | ⟨hk1, hb1⟩
      · rcases hm2 with hl2 | ⟨hk2, _⟩
        · exact Or.inl (lexCmp_lt_trans _ _ _ hl1 hl2)
        · exact Or.inl (hk2 ▸ hl1)
      · rcases hm2 with hl2 | ⟨hk2, hb2⟩
        · exact Or.inl (hk1 ▸ hl2)
        · exact Or.inr ⟨hk1.trans hk2, Nat.le_trans hb1 hb2⟩

/-- On tame names the comparator-induced order is total. -/
theorem entryLe_total (fold : Nat → Nat) (a b : FileEntry)
    (ha : tameName fold a) (hb : tameName fold b) :
    (entryLe fold a b || entryLe fold b a) = true := by
  rw [Bool.or_eq_true, entryLe_iff fold a b ha hb, entryLe_iff fold b a hb ha]
  rcases Nat.lt_trichotomy (entryRank a) (entryRank b) with hr | hr | hr
  · exact Or.inl (Or.inl hr)
  · cases hl : lexCmp (lowerKey fold a.name.data) (lowerKey fold b.name.data) with
    | lt => exact Or.inl (Or.inr ⟨hr, Or.inl rfl⟩)
    | eq =>
      have hk := (lexCmp_eq_iff _ _).mp hl
      rcases Nat.le_total (byteLen a.name.data) (byteLen b.name.data) with hbl | hbl
      · exact Or.inl (Or.inr ⟨hr, Or.inr ⟨hk, hbl⟩⟩)
      · exact Or.inr (Or.inr ⟨hr.symm, Or.inr ⟨hk.symm, hbl⟩⟩)
    | gt =>
      have := (lexCmp_lt_iff_gt _ _).mpr hl
      exact Or.inr (Or.inr ⟨hr.symm, Or.inl this⟩)
  · exact Or.inr (Or.inl hr)

/-- On tame names a strict lexicographic step on folded keys is either a
strict step of the truncated case-insensitive comparison or a proper
extension, in which case the shorter name also has strictly fewer bytes. -/
theorem lex_lt_ciCmp (fold : Nat → Nat) : ∀ x y : List Char,
    (∀ c ∈ x, cpBytes (fold c.toNat) = cpBytes c.toNat) →
    (∀ c ∈ y, cpBytes (fold c.toNat) = cpBytes c.toNat) →
    lexCmp (lowerKey fold x) (lowerKey fold y) = .lt →
      ciCmp fold x y = .lt ∨ (ciCmp fold x y = .eq ∧ byteLen x < byteLen y) := by
  intro x
  induction x with
  | nil =>
    intro y _ _ h
    cases y with
    | nil => simp [lowerKey, lexCmp] at h
    | cons c cs =>
      refine Or.inr ⟨rfl, ?_⟩
      have := cpBytes_pos c.toNat
      simp only [byteLen, List.map_nil, List.sum_nil, List.map_cons, List.sum_cons]
      omega
  | cons a as ih =>
    intro y hx hy h
    cases y with
    | nil => simp [lowerKey, lexCmp] at h
    | cons b bs =>
      by_cases hab : fold a.toNat = fold b.toNat
      · simp only [lowerKey, List.map_cons, lexCmp, hab, if_pos rfl] at h
        rcases ih bs (fun c hc => hx c (List.mem_cons_of_mem a hc))
            (fun c hc => hy c (List.mem_cons_of_mem b hc)) h with h2 | ⟨h2, h3⟩
        · exact Or.inl (by simp [ciCmp, hab, h2])
        · refine Or.inr ⟨by simp [ciCmp, hab, h2], ?_⟩
          have hsz := cpBytes_fold_eq fold a.toNat b.toNat
            (hx a (List.mem_cons_self a as)) (hy b (List.mem_cons_self b bs)) hab
          simp only [byteLen, List.map_cons, List.sum_cons] at h3 ⊢
          omega
      · simp only [lowerKey, List.map_cons, lexCmp, if_neg hab] at h
        exact Or.inl (by simp [ciCmp, if_neg hab, h])

/-- On tame names, equal folded keys mean the truncated comparison reports
equality and the byte lengths agree. -/
theorem lowerKey_eq_ciCmp (fold : Nat → Nat) : ∀ x y : List Char,
    (∀ c ∈ x, cpBytes (fold c.toNat) = cpBytes c.toNat) →
    (∀ c ∈ y, cpBytes (fold c.toNat) = cpBytes c.toNat) →
    lowerKey fold x = lowerKey fold y →
      ciCmp fold x y = .eq ∧ byteLen x = byteLen y := by
  intro x
  induction x with
  | nil =>
    intro y _ _ h
    cases y with
    | nil => exact ⟨rfl, rfl⟩
    | cons c cs => simp [lowerKey] at h
  | cons a as ih =>
    intro y hx hy h
    cases y with
    | nil => simp [lowerKey] at h
    | cons b bs =>
      simp only [lowerKey, List.map_cons, List.cons.injEq] at h
      obtain ⟨hab, hrest⟩ := h
      obtain ⟨hc, hb⟩ := ih bs (fun c hc => hx c (List.mem_cons_of_mem a hc))
        (fun c hc => hy c (List.mem_cons_of_mem b hc)) hrest
      refine ⟨by simp [ciCmp, hab, hc], ?_⟩
      have hsz := cpBytes_fold_eq fold a.toNat b.toNat
        (hx a (List.mem_cons_self a as)) (hy b (List.mem_cons_self b bs)) hab
      simp only [byteLen, List.map_cons, List.sum_cons]
      simp only [byteLen] at hb
      omega

/-- Group ranks are ordered exactly when the first entry is a directory and
the second is not. -/
theorem entryRank_lt_iff (a b : FileEntry) :
    entryRank a < entryRank b ↔ (a.is_dir = true ∧ b.is_dir = false) := by
  simp only [entryRank]
  cases ha : a.is_dir <;> cases hb : b.is_dir <;> simp

/-- Equal group ranks mean equal directory flags. -/
theorem entryRank_eq_iff (a b : FileEntry) :
    entryRank a = entryRank b ↔ a.is_dir = b.is_dir := by
  simp only [entryRank]
  cases ha : a.is_dir <;> cases hb : b.is_dir <;> simp

/-- On tame names the comparator-induced order implies the canonical order
of the claim. -/
theorem entryLe_imp_claimOrder (fold : Nat → Nat) (a b : FileEntry)
    (ha : tameName fold a) (hb : tameName fold b)
    (h : entryLe fold a b = true) : claimOrder fold a b := by
  rw [entryLe_iff fold a b ha hb] at h
  rcases h with hr | ⟨hre, hm⟩
  · exact Or.inl ((entryRank_lt_iff a b).mp hr)
  · refine Or.inr ⟨(entryRank_eq_iff a b).mp hre, ?_⟩
    rcases hm with hl | ⟨hk, hbl⟩
    · rcases lex_lt_ciCmp fold _ _ ha hb hl with h2 | ⟨h2, h3⟩
      · exact Or.inl h2
      · exact Or.inr ⟨h2, Nat.le_of_lt h3⟩
    · obtain ⟨hc, hbe⟩ := lowerKey_eq_ciCmp fold _ _ ha hb hk
      exact Or.inr ⟨hc, hbl⟩

/-- Counterexample to claim C10 as stated: with the Unicode case folding
(which lower-cases U+212A KELVIN SIGN, a 3-byte character, to the 1-byte k),
the canonical-order requirements on the three concrete visible entries
named KELVIN SIGN, KELVIN SIGN b and kc form a cycle, so every permutation
of that listing - hence any output the sort could return, including the
model output, which is such a permutation - violates the canonical order. -/
theorem list_files_canonical_order_counterexample :
    (kelvinEntries.permutations'.all
      (fun l => !(decide (List.Pairwise (claimOrder kelvinFold) l)))) = true ∧
    ¬ List.Pairwise (claimOrder kelvinFold)
        (sortEntries kelvinFold kelvinEntries) := by
  have hall : (kelvinEntries.permutations'.all
      (fun l => !(decide (List.Pairwise (claimOrder kelvinFold) l)))) = true := by
    decide
  refine ⟨hall, ?_⟩
  intro hp
  have hmem : sortEntries kelvinFold kelvinEntries ∈ kelvinEntries.permutations' :=
    List.mem_permutations'.mpr (List.mergeSort_perm kelvinEntries (entryLe kelvinFold))
  have h2 := List.all_eq_true.mp hall _ hmem
  rw [Bool.not_eq_eq_eq_not, Bool.not_true] at h2
  exact (of_decide_eq_false h2) hp

/-- Claim C10 (amended): for a concrete filesystem path (neither the
recycle-bin virtual path nor the empty drives path) with accessible
enumeration, and for a listing every visible entry name of which keeps its
UTF-8 byte size under the case folding of the comparator (as every ASCII
name does under the Unicode folding), the listing succeeds and returns
exactly the visible entries, freshly sorted on this call: a permutation of
the enumerated entries in which every earlier entry relates to every later
one by the canonical order (directories before non-directories,
case-insensitive character-wise name order inside a group, byte-length
tiebreak shorter first).  For names with length-changing case folds no
output order can meet the canonical description, as the counterexample
shows, so the tameness restriction is necessary. -/
theorem list_files_canonical_order (fold : Nat → Nat) (env : ListEnv)
    (path : String) (sh : Bool)
    (h1 : path ≠ "shell:RecycleBin") (h2 : path ≠ "")
    (h3 : env.createItemOk = true) (h4 : env.bindOk = true)
    (htame : ∀ e ∈ visibleEntries env sh, tameName fold e) :
    list_files_impl fold env path sh
      = Except.ok (sortEntries fold (visibleEntries env sh)) ∧
    List.Perm (sortEntries fold (visibleEntries env sh)) (visibleEntries env sh) ∧
    List.Pairwise (claimOrder fold) (sortEntries fold (visibleEntries env sh)) := by
  refine ⟨by simp [list_files_impl, h1, h2, h3, h4], List.mergeSort_perm _ _, ?_⟩
  have hsub : ((visibleEntries env sh).attach.mergeSort
      (fun a b => entryLe fold a.val b.val)).Pairwise
      (fun a b => entryLe fold a.val b.val = true) := by
    refine List.sorted_mergeSort ?_ ?_ (visibleEntries env sh).attach
    · intro a b c hab hbc
      exact entryLe_trans fold a.val b.val c.val
        (htame a.val a.prop) (htame b.val b.prop) (htame c.val c.prop) hab hbc
    · intro a b
      exact entryLe_total fold a.val b.val (htame a.val a.prop) (htame b.val b.prop)
  have hmap : ((visibleEntries env sh).attach.mergeSort
        (fun a b => entryLe fold a.val b.val)).map Subtype.val
      = (visibleEntries env sh).mergeSort (entryLe fold) := by
    have hcast : ((visibleEntries env sh).attach.mergeSort
          (fun a b => entryLe fold a.val b.val)).map Subtype.val
        = ((visibleEntries env sh).attach.map Subtype.val).mergeSort (entryLe fold) :=
      List.map_mergeSort (fun a _ b _ => rfl)
    rw [hcast, List.attach_map_subtype_val]
  have hp : ((visibleEntries env sh).mergeSort (entryLe fold)).Pairwise
      (fun a b => entryLe fold a b = true) := by
    rw [← hmap]
    exact hsub.map Subtype.val (fun a b h => h)
  refine List.Pairwise.imp_of_mem ?_ hp
  intro a b hma hmb hab
  have ha2 : a ∈ visibleEntries env sh := by
    have := List.mem_mergeSort.mp hma
    simpa [sortEntries] using this
  have hb2 : b ∈ visibleEntries env sh := by
    have := List.mem_mergeSort.mp hmb
    simpa [sortEntries] using this
  exact entryLe_imp_claimOrder fold a b (htame a ha2) (htame b hb2) hab

/-- Witness for the amended claim C10 at a concrete environment with ASCII
names: a listing of one file and one directory under the path C sorts in
canonical order under the ASCII folding. -/
theorem list_files_canonical_order_witness :
    List.Pairwise (claimOrder asciiFold)
      (sortEntries asciiFold (visibleEntries
        { createItemOk := true, bindOk := true,
          enumerated :=
            [({ name := "b", path := "C\\b", is_dir := false, size := 1,
                formatted_size := "", file_type := "", created_at := "",
                modified_at := "", is_shortcut := false, disk_info := none,
                modified_timestamp := 0, dimensions := none }, false),
             ({ name := "A", path := "C\\A", is_dir := true, size := 0,
                formatted_size := "", file_type := "", created_at := "",
                modified_at := "", is_shortcut := false, disk_info := none,
                modified_timestamp := 0, dimensions := none }, false)],
          recycleList := [], drivesList := [] } true)) :=
  (list_files_canonical_order asciiFold
    { createItemOk := true, bindOk := true,
      enumerated :=
        [({ name := "b", path := "C\\b", is_dir := false, size := 1,
            formatted_size := "", file_type := "", created_at := "",
            modified_at := "", is_shortcut := false, disk_info := none,
            modified_timestamp := 0, dimensions := none }, false),
         ({ name := "A", path := "C\\A", is_dir := true, size := 0,
            formatted_size := "", file_type := "", created_at := "",
            modified_at := "", is_shortcut := false, disk_info := none,
            modified_timestamp := 0, dimensions := none }, false)],
      recycleList := [], drivesList := [] }
    "C" true (by decide) (by decide) rfl rfl (by decide)).2.2
